import Mathlib

/-!
# Verification of the crd-swagger pipeline

A shallow embedding, in Lean 4, of the core of the `rancher/crd-swagger`
tool: the resource-set parser, the discovery gate, the kubeconfig
extractor, the schema filter (path matching and reference-closure walk),
and the orchestrating `run` function, together with theorems settling the
specification's claims about them.

Conventions used throughout:

* Go maps keyed by `metav1.GroupKind` are embedded as association lists
  `List (GroupKind × Bool)`; insertion preserves first-insertion order,
  which stands in for Go's unspecified map iteration order.  All theorems
  that depend on iteration order are flagged in their doc comments.
* Fallible Go functions returning `(T, error)` become `Except String T`
  (or a structured error type when a claim inspects the error).
* Blocking polls (`wait.PollUntilContextTimeout`) are embedded by passing
  the finite sequence of outcomes the polled operation would produce, one
  entry per poll tick; exhausting the list models the poll budget
  elapsing.
* The reference walker of the vendored `aggregator` package is embedded
  with explicit fuel bounding the depth of `$ref` resolution chains,
  since its termination is exactly what is at issue.
-/

namespace CrdSwagger

/-! ## Data model: resource keys

`metav1.GroupKind` from k8s.io/apimachinery: a (kind, group) pair.
Equality is structural. -/

/-- Embeds `metav1.GroupKind`: `{Group string; Kind string}`. -/
structure GroupKind where
  group : String
  kind : String
deriving DecidableEq, Repr

/-- Embeds `metav1.GroupKind.String()`:
`if gk.Group == "" { return gk.Kind }; return gk.Kind + "." + gk.Group`. -/
def GroupKind.toStr (gk : GroupKind) : String :=
  if gk.group = "" then gk.kind else gk.kind ++ "." ++ gk.group

/-! ## ResourceSetParser (`parseGroupKind`, src/unnamed/part_005 lines 56-91)

The Go function scans the input line by line:
trim, skip blank lines and lines beginning with `#`, then
`strings.SplitN(line, ".", 2)`: two parts give
`GroupKind{Group: parts[1], Kind: parts[0]}`, one part gives
`GroupKind{Kind: parts[0]}`.  Each key is stored in a
`map[metav1.GroupKind]bool` with value `false`; an empty map is an
error.  The embedding takes the already-split list of lines (the
`bufio.Scanner` loop) and represents the map as an association list in
first-insertion order. -/

/-- Embeds Go `unicode.IsSpace` for the byte range relevant here: ASCII
whitespace plus NEL and NBSP (the Latin-1 cases of Go's table). -/
def isGoSpace (c : Char) : Bool :=
  c = ' ' ∨ c = '\t' ∨ c = '\n' ∨ c = '\r' ∨ c = '\x0b' ∨ c = '\x0c'
    ∨ c.toNat = 0x85 ∨ c.toNat = 0xa0

/-- Embeds Go `strings.TrimSpace`: drop leading and trailing whitespace. -/
def goTrim (s : String) : String :=
  String.mk ((((s.toList).dropWhile isGoSpace).reverse.dropWhile isGoSpace).reverse)

/-- Embeds Go `strings.HasPrefix`. -/
def goHasPrefix (s pfx : String) : Bool :=
  pfx.toList.isPrefixOf s.toList

/-- Splits a list at the first occurrence of `c`, returning the parts
before and after it; `none` when `c` does not occur.  This is
`strings.SplitN(s, c, 2)` at the character level. -/
def splitAtFirst (c : Char) : List Char → Option (List Char × List Char)
  | [] => none
  | x :: xs =>
    if x = c then some ([], xs)
    else match splitAtFirst c xs with
      | none => none
      | some (l, r) => some (x :: l, r)

/-- Embeds the per-line `strings.SplitN(line, ".", 2)` logic of
`parseGroupKind`: the first dot splits kind from group (the group may
itself contain dots); with no dot the whole line is the kind and the
group is empty. -/
def lineToGroupKind (line : String) : GroupKind :=
  match splitAtFirst '.' line.toList with
  | none => { group := "", kind := line }
  | some (k, g) => { group := String.mk g, kind := String.mk k }

/-- Inserting into the `map[metav1.GroupKind]bool`: `m[gk] = false`.
Every stored value is `false`, so re-inserting an existing key leaves
the association list unchanged. -/
def insertGKFalse (gk : GroupKind) (m : List (GroupKind × Bool)) :
    List (GroupKind × Bool) :=
  if (m.lookup gk).isSome then m else m ++ [(gk, false)]

/-- One iteration of the scanner loop of `parseGroupKind`: trim the
line, skip it when blank or starting with `#`, otherwise split and
insert. -/
def parseGroupKindStep (m : List (GroupKind × Bool)) (line : String) :
    List (GroupKind × Bool) :=
  let l := goTrim line
  if l = "" ∨ goHasPrefix l "#" then m
  else insertGKFalse (lineToGroupKind l) m

/-- The scanner loop of `parseGroupKind` over all input lines. -/
def parseGroupKindLines (lines : List String) : List (GroupKind × Bool) :=
  lines.foldl parseGroupKindStep []

/-- Embeds `parseGroupKind` (src/unnamed/part_005 lines 56-91), after the
content reader has produced its lines: the scanner loop followed by the
`len(groupKindsMap) == 0` check, which is the fatal
`no GroupKind found in file` configuration error. -/
def parseGroupKind (lines : List String) : Except String (List (GroupKind × Bool)) :=
  let m := parseGroupKindLines lines
  if m.isEmpty then .error "no GroupKind found in file"
  else .ok m

/-! Basic facts about the parser used by claim C6. -/

theorem lookup_append_single {α β : Type} [DecidableEq α] (m : List (α × β))
    (a g : α) (b : β) :
    (m ++ [(a, b)]).lookup g =
      match m.lookup g with
      | some v => some v
      | none => if g = a then some b else none := by
  induction m with
  | nil =>
    by_cases h : g = a
    · simp [List.lookup, h]
    · simp [List.lookup, beq_false_of_ne h, h]
  | cons p rest ih =>
    by_cases h : g = p.1
    · simp [List.lookup, h]
    · simp only [List.cons_append, List.lookup, beq_false_of_ne h]
      exact ih

theorem insertGKFalse_lookup_isSome (gk g : GroupKind) (m : List (GroupKind × Bool)) :
    ((insertGKFalse gk m).lookup g).isSome ↔ g = gk ∨ (m.lookup g).isSome := by
  unfold insertGKFalse
  by_cases h : (m.lookup gk).isSome
  · simp only [h, if_true]
    constructor
    · intro hg; exact Or.inr hg
    · rintro (rfl | hg)
      · exact h
      · exact hg
  · rw [if_neg h, lookup_append_single]
    rcases hm : m.lookup g with _ | v
    · by_cases hg : g = gk <;> simp [hg, hm]
    · simp [hm]

theorem parseGroupKindStep_lookup_isSome (m : List (GroupKind × Bool))
    (line : String) (g : GroupKind) :
    ((parseGroupKindStep m line).lookup g).isSome ↔
      (¬(goTrim line = "" ∨ goHasPrefix (goTrim line) "#") ∧ g = lineToGroupKind (goTrim line))
        ∨ (m.lookup g).isSome := by
  unfold parseGroupKindStep
  by_cases h : goTrim line = "" ∨ goHasPrefix (goTrim line) "#"
  · simp [h]
  · simp only [h, if_false]
    rw [insertGKFalse_lookup_isSome]
    tauto

/-- Keys of the parsed map: `g` is a key iff some input line, after
trimming, is significant (non-blank, not a comment) and splits to `g`. -/
theorem parseGroupKindLines_lookup_isSome (lines : List String) (g : GroupKind) :
    ((parseGroupKindLines lines).lookup g).isSome ↔
      ∃ line ∈ lines, ¬(goTrim line = "" ∨ goHasPrefix (goTrim line) "#")
        ∧ lineToGroupKind (goTrim line) = g := by
  unfold parseGroupKindLines
  suffices h : ∀ (m : List (GroupKind × Bool)),
      ((lines.foldl parseGroupKindStep m).lookup g).isSome ↔
        (∃ line ∈ lines, ¬(goTrim line = "" ∨ goHasPrefix (goTrim line) "#")
          ∧ lineToGroupKind (goTrim line) = g) ∨ (m.lookup g).isSome by
    rw [h []]; simp [List.lookup]
  induction lines with
  | nil => intro m; simp
  | cons l rest ih =>
    intro m
    simp only [List.foldl_cons]
    rw [ih (parseGroupKindStep m l), parseGroupKindStep_lookup_isSome]
    constructor
    · rintro (⟨line, hmem, hsig, hsplit⟩ | (⟨hsig, rfl⟩ | hm))
      · exact Or.inl ⟨line, List.mem_cons_of_mem _ hmem, hsig, hsplit⟩
      · exact Or.inl ⟨l, List.mem_cons_self _ _, hsig, rfl⟩
      · exact Or.inr hm
    · rintro (⟨line, hmem, hsig, hsplit⟩ | hm)
      · rcases List.mem_cons.mp hmem with rfl | hmem'
        · exact Or.inr (Or.inl ⟨hsig, hsplit.symm⟩)
        · exact Or.inl ⟨line, hmem', hsig, hsplit⟩
      · exact Or.inr (Or.inr hm)

theorem lookup_isSome_iff_mem_keys {α β : Type} [DecidableEq α]
    (m : List (α × β)) (a : α) :
    (m.lookup a).isSome ↔ a ∈ m.map Prod.fst := by
  induction m with
  | nil => simp [List.lookup]
  | cons p rest ih =>
    by_cases h : a = p.1
    · simp [List.lookup, h]
    · simp [List.lookup, beq_false_of_ne h, h, ih]

theorem parseGroupKindLines_snd_false (lines : List String) :
    ∀ p ∈ parseGroupKindLines lines, p.2 = false := by
  unfold parseGroupKindLines
  suffices h : ∀ (m : List (GroupKind × Bool)), (∀ p ∈ m, p.2 = false) →
      ∀ p ∈ lines.foldl parseGroupKindStep m, p.2 = false from
    h [] (by simp)
  induction lines with
  | nil => intro m hm; simpa using hm
  | cons l rest ih =>
    intro m hm
    refine ih _ ?_
    intro p hp
    unfold parseGroupKindStep at hp
    by_cases hs : goTrim l = "" ∨ goHasPrefix (goTrim l) "#"
    · rw [if_pos hs] at hp; exact hm p hp
    · rw [if_neg hs] at hp
      unfold insertGKFalse at hp
      by_cases hk : (m.lookup (lineToGroupKind (goTrim l))).isSome
      · rw [if_pos hk] at hp; exact hm p hp
      · rw [if_neg hk] at hp
        rcases List.mem_append.mp hp with h' | h'
        · exact hm p h'
        · simpa using List.mem_singleton.mp h' ▸ rfl

theorem parseGroupKindLines_keys_nodup (lines : List String) :
    ((parseGroupKindLines lines).map Prod.fst).Nodup := by
  unfold parseGroupKindLines
  suffices h : ∀ (m : List (GroupKind × Bool)), (m.map Prod.fst).Nodup →
      ((lines.foldl parseGroupKindStep m).map Prod.fst).Nodup from
    h [] (by simp)
  induction lines with
  | nil => intro m hm; simpa using hm
  | cons l rest ih =>
    intro m hm
    refine ih _ ?_
    unfold parseGroupKindStep
    by_cases hs : goTrim l = "" ∨ goHasPrefix (goTrim l) "#"
    · rw [if_pos hs]; exact hm
    · rw [if_neg hs]
      unfold insertGKFalse
      by_cases hk : ((m.lookup (lineToGroupKind (goTrim l)))).isSome
      · rw [if_pos hk]; exact hm
      · rw [if_neg hk]
        rw [List.map_append]
        refine List.Nodup.append hm (by simp) ?_
        intro a ha hb
        simp only [List.map_cons, List.map_nil, List.mem_singleton] at hb
        subst hb
        exact hk ((lookup_isSome_iff_mem_keys m _).mpr ha)

/-- Whether a trimmed line survives the skip test of `parseGroupKind`. -/
def significantLine (l : String) : Prop := ¬(l = "" ∨ goHasPrefix l "#")

instance (l : String) : Decidable (significantLine l) := by
  unfold significantLine; infer_instance

/-- The distinct (kind, group) pairs produced by the significant lines. -/
def distinctPairs (lines : List String) : List GroupKind :=
  (((lines.map goTrim).filter (fun l => significantLine l)).map
    lineToGroupKind).dedup

theorem parseGroupKindLines_length (lines : List String) :
    (parseGroupKindLines lines).length = (distinctPairs lines).length := by
  have hkeys := parseGroupKindLines_keys_nodup lines
  have hlen : (parseGroupKindLines lines).length
      = ((parseGroupKindLines lines).map Prod.fst).length := by
    simp
  rw [hlen, ← List.toFinset_card_of_nodup hkeys]
  unfold distinctPairs
  rw [← List.card_toFinset]
  congr 1
  apply Finset.ext
  intro g
  rw [List.mem_toFinset, List.mem_toFinset, ← lookup_isSome_iff_mem_keys,
    parseGroupKindLines_lookup_isSome]
  simp only [List.mem_map, List.mem_filter, List.mem_map]
  constructor
  · rintro ⟨line, hmem, hsig, hsplit⟩
    exact ⟨goTrim line, ⟨⟨line, hmem, rfl⟩, by simpa [significantLine] using hsig⟩, hsplit⟩
  · rintro ⟨l, ⟨⟨line, hmem, rfl⟩, hsig⟩, hsplit⟩
    exact ⟨line, hmem, by simpa [significantLine] using hsig, hsplit⟩

theorem splitAtFirst_of_not_mem (c : Char) (l : List Char) (h : c ∉ l) :
    splitAtFirst c l = none := by
  induction l with
  | nil => rfl
  | cons x xs ih =>
    simp only [List.mem_cons, not_or] at h
    unfold splitAtFirst
    rw [if_neg (fun hc => h.1 hc.symm), ih h.2]

theorem splitAtFirst_append_of_not_mem (c : Char) (k g : List Char) (h : c ∉ k) :
    splitAtFirst c (k ++ c :: g) = some (k, g) := by
  induction k with
  | nil => simp [splitAtFirst]
  | cons x xs ih =>
    simp only [List.mem_cons, not_or] at h
    simp only [List.cons_append]
    unfold splitAtFirst
    rw [if_neg (fun hc => h.1 hc.symm), ih h.2]

theorem lineToGroupKind_no_dot (s : String) (h : '.' ∉ s.toList) :
    lineToGroupKind s = { group := "", kind := s } := by
  unfold lineToGroupKind
  rw [splitAtFirst_of_not_mem _ _ h]

theorem lineToGroupKind_dot (k g : String) (h : '.' ∉ k.toList) :
    lineToGroupKind (k ++ "." ++ g) = { group := g, kind := k } := by
  unfold lineToGroupKind
  have : (k ++ "." ++ g).toList = k.toList ++ '.' :: g.toList := by
    simp only [String.toList, String.data_append]
    simp
  rw [this, splitAtFirst_append_of_not_mem _ _ _ h]
  simp

/-- **C6.** For every input, the resource-set parser skips blank and
`#`-comment lines after trimming, splits each remaining line at its
first dot into kind and group (a line with no dot yields an empty
group, and the group may itself contain dots), collapses duplicates
with set semantics, initialises every found flag to `false`, and the
resulting set's size equals the number of distinct (kind, group)
pairs. -/
theorem parseGroupKind_spec (lines : List String) :
    (∀ g : GroupKind, ((parseGroupKindLines lines).lookup g).isSome ↔
        ∃ line ∈ lines, significantLine (goTrim line) ∧ lineToGroupKind (goTrim line) = g)
    ∧ (∀ p ∈ parseGroupKindLines lines, p.2 = false)
    ∧ (parseGroupKindLines lines).length = (distinctPairs lines).length
    ∧ (∀ s : String, '.' ∉ s.toList →
        lineToGroupKind s = { group := "", kind := s })
    ∧ (∀ k g : String, '.' ∉ k.toList →
        lineToGroupKind (k ++ "." ++ g) = { group := g, kind := k }) := by
  refine ⟨?_, parseGroupKindLines_snd_false lines, parseGroupKindLines_length lines,
    lineToGroupKind_no_dot, lineToGroupKind_dot⟩
  intro g
  rw [parseGroupKindLines_lookup_isSome]
  simp [significantLine]

/-- Witness for C6: the parser evaluated on a concrete five-line input
(with a comment, a blank line, an untrimmed line and a duplicate). -/
theorem parseGroupKind_spec_witness :
    ((parseGroupKindLines
        ["Widget.example.io", "# note", "", " Pod ", "Widget.example.io"]).lookup
      { group := "example.io", kind := "Widget" }).isSome
    ∧ (parseGroupKindLines
        ["Widget.example.io", "# note", "", " Pod ", "Widget.example.io"]).length
      = (distinctPairs
        ["Widget.example.io", "# note", "", " Pod ", "Widget.example.io"]).length
    ∧ ('.' ∉ "Pod".toList
        ∧ lineToGroupKind "Pod" = { group := "", kind := "Pod" })
    ∧ ('.' ∉ "Widget".toList
        ∧ lineToGroupKind ("Widget" ++ "." ++ "example.io")
          = { group := "example.io", kind := "Widget" }) := by
  obtain ⟨h1, _, h3, h4, h5⟩ := parseGroupKind_spec
    ["Widget.example.io", "# note", "", " Pod ", "Widget.example.io"]
  refine ⟨(h1 _).mpr ⟨"Widget.example.io", by decide, by decide, by decide⟩,
    h3, ⟨by decide, h4 "Pod" (by decide)⟩,
    ⟨by decide, h5 "Widget" "example.io" (by decide)⟩⟩

/-! ## OpenAPI document model (`k8s.io/kube-openapi/pkg/validation/spec`)

The fields of `spec.Schema`, `spec.Parameter`, `spec.Response`,
`spec.Operation`, `spec.PathItem` and `spec.Swagger` that the filtering
code reads.  `$ref` fields are embedded as the `String` that Go's
`ref.String()` returns, with `""` for an absent reference.  `Schema`
keeps the composition fields the reference walker recurses through
(`Properties`, `Items`, `AllOf`); the walker treats the remaining
composition fields (`AnyOf`, `OneOf`, `Not`, `Definitions`,
`PatternProperties`, `AdditionalProperties`, `AdditionalItems`)
identically, by the same recursive descent, so they are represented by
these three. -/

/-- A schema node: its `$ref` string and its child schemas. -/
inductive Schema where
  | mk (ref : String) (properties : List (String × Schema)) (items : Option Schema)
      (allOf : List Schema)

/-- The `$ref` string of a schema node. -/
def Schema.ref : Schema → String
  | .mk r _ _ _ => r

/-- Embeds `spec.Parameter`: its `Ref`, optional `Schema`, and `Items`
(`items = none` for a nil `Items` pointer, otherwise the `Items.Ref`
string). -/
structure Param where
  ref : String
  schema : Option Schema
  items : Option String

/-- Embeds `spec.Response`: its `Ref` and optional `Schema`. -/
structure Response where
  ref : String
  schema : Option Schema

/-- The outcome of `operation.Extensions.GetObject(extensionGVK, &newGKs)`
for one operation.  `spec.Extensions.GetObject` looks the key up in the
extensions map; when the key is absent it returns a nil error and leaves
the out-parameter at its zero value, so the three observable outcomes
are: the extension is absent (`newGKs` stays `GroupKind{}`), the
extension is present but does not unmarshal into `metav1.GroupKind`
(non-nil error), or it decodes to a value. -/
inductive ExtGK where
  | absent
  | undecodable
  | value (gk : GroupKind)
deriving DecidableEq, Repr

/-- Embeds `spec.Operation`: its vendor-extension decode outcome, its
`Parameters` and its `Responses` (default and by status code, in one
list). -/
structure Operation where
  ext : ExtGK
  parameters : List Param
  responses : List Response

/-- Embeds `spec.PathItem`: the seven HTTP-method operation slots and the
path-level `Parameters`. -/
structure PathItem where
  get : Option Operation := none
  put : Option Operation := none
  post : Option Operation := none
  delete : Option Operation := none
  options : Option Operation := none
  head : Option Operation := none
  patch : Option Operation := none
  parameters : List Param := []

/-- Embeds `spec.Swagger`: `Paths` (with `none` for a nil `Paths`
pointer), `Definitions`, and the shared top-level `Parameters` section.
Go's maps appear as association lists. -/
structure Swagger where
  paths : Option (List (String × PathItem))
  definitions : List (String × Schema) := []
  parameters : List (String × Param) := []

/-! ## SchemaFilter: key extraction and path matching
(src/unnamed/part_005 lines 93-179) -/

/-- Insertion into the `map[metav1.GroupKind]bool` set `gks` of
`groupKindsFromPath`. -/
def gkSetInsert (gk : GroupKind) (gks : List GroupKind) : List GroupKind :=
  if gk ∈ gks then gks else gks ++ [gk]

/-- Embeds `addGKFromOp` (src/unnamed/part_005 lines 167-179): a nil
operation contributes nothing; a decode error is returned (and merely
logged by the caller); otherwise `gks[newGKs] = true` — where an absent
extension leaves `newGKs` at the zero `GroupKind{"", ""}` (see
`ExtGK`). -/
def addGKFromOp (operation : Option Operation) (gks : List GroupKind) :
    Except String (List GroupKind) :=
  match operation with
  | none => .ok gks
  | some op =>
    match op.ext with
    | .undecodable => .error "failed to get gk from operation"
    | .absent => .ok (gkSetInsert { group := "", kind := "" } gks)
    | .value gk => .ok (gkSetInsert gk gks)

/-- The seven HTTP-method operation slots of a path item, in the order of
the map literal in `groupKindsFromPath`. -/
def opsOfPathItem (p : PathItem) : List (Option Operation) :=
  [p.get, p.put, p.post, p.delete, p.options, p.head, p.patch]

/-- Embeds `groupKindsFromPath` (src/unnamed/part_005 lines 147-165):
fold `addGKFromOp` over the seven operation slots, ignoring (logging)
per-operation errors, and return the accumulated key set.  Go iterates
the `ops` map in unspecified order and returns the set in unspecified
order; the embedding fixes the map-literal order, and every theorem
about this function is stated up to membership. -/
def gkStep (gks : List GroupKind) (op : Option Operation) : List GroupKind :=
  match addGKFromOp op gks with
  | .ok gks' => gks'
  | .error _ => gks

def groupKindsFromPath (p : PathItem) : List GroupKind :=
  (opsOfPathItem p).foldl gkStep []

/-- The errors `getDesiredPaths` returns: the nil-paths check and the
`failed to find path for GroupKind %s` match failure (which carries the
one `GroupKind` the message names). -/
inductive MatchErr where
  | noPaths
  | unmatched (gk : GroupKind)
deriving DecidableEq, Repr

/-- `desiredGroupKinds[gk] = true`: mark one key found, leaving every
other entry and all keys unchanged. -/
def setFound (m : List (GroupKind × Bool)) (gk : GroupKind) :
    List (GroupKind × Bool) :=
  m.map (fun p => if p.1 = gk then (p.1, true) else p)

/-- The inner loop of `getDesiredPaths`: the first extracted key of the
path that is a key of the desired map (`if _, ok := desiredGroupKinds[gks[i]]; ok`
followed by `break`), or `none`. -/
def firstDesiredKey (gks : List GroupKind) (m : List (GroupKind × Bool)) :
    Option GroupKind :=
  gks.find? (fun gk => (m.lookup gk).isSome)

/-- One iteration of the path loop of `getDesiredPaths`: if some
extracted key of the path is desired, append the path name to
`keepPaths` and mark that one key found (the Go loop `break`s after the
first match, so at most one key is marked per path). -/
def getDesiredPathsStep (st : List String × List (GroupKind × Bool))
    (pp : String × PathItem) : List String × List (GroupKind × Bool) :=
  match firstDesiredKey (groupKindsFromPath pp.2) st.2 with
  | some gk => (st.1 ++ [pp.1], setFound st.2 gk)
  | none => st

/-- Embeds `getDesiredPaths` (src/unnamed/part_005 lines 93-115): fail
when `swagger.Paths` is nil; loop over the paths accumulating
`keepPaths` and marking found keys; then fail naming the first key whose
flag is still false, if any.  Go mutates `desiredGroupKinds` in place;
the embedding threads the map and returns it alongside `keepPaths`.  Go
iterates both maps in unspecified order; the embedding uses list
order. -/
def getDesiredPaths (swagger : Swagger) (desired : List (GroupKind × Bool)) :
    Except MatchErr (List String × List (GroupKind × Bool)) :=
  match swagger.paths with
  | none => .error .noPaths
  | some ps =>
    match (ps.foldl getDesiredPathsStep ([], desired)).2.find? (fun p => !p.2) with
    | some p => .error (.unmatched p.1)
    | none => .ok (ps.foldl getDesiredPathsStep ([], desired))

/-- The path-keeping test exactly as claim C1 words it: the path has a
present operation whose vendor extension is present, decodes, and yields
a key of the desired set.  (This is the claim's phrasing, to be compared
with what `getDesiredPaths` does; it is not part of the embedding of the
source.) -/
def claimKeepsPath (desired : List (GroupKind × Bool)) (p : PathItem) : Bool :=
  (opsOfPathItem p).any (fun op =>
    match op with
    | some o =>
      match o.ext with
      | .value gk => (desired.lookup gk).isSome
      | _ => false
    | none => false)

/-! Facts about key extraction and path matching (claims C1 and C3). -/

theorem mem_gkSetInsert (g gk : GroupKind) (l : List GroupKind) :
    g ∈ gkSetInsert gk l ↔ g = gk ∨ g ∈ l := by
  unfold gkSetInsert
  by_cases h : gk ∈ l
  · rw [if_pos h]
    constructor
    · exact Or.inr
    · rintro (rfl | hg)
      exacts [h, hg]
  · rw [if_neg h]
    simp [List.mem_append, or_comm]

/-- What one operation slot contributes to the extracted key set: a
decoded key, or the zero key when the extension is absent. -/
def opContributes (op : Option Operation) (gk : GroupKind) : Prop :=
  ∃ o, op = some o ∧
    (o.ext = .value gk ∨ (o.ext = .absent ∧ gk = { group := "", kind := "" }))

theorem mem_gkStep (g : GroupKind) (gks : List GroupKind) (op : Option Operation) :
    g ∈ gkStep gks op ↔ opContributes op g ∨ g ∈ gks := by
  unfold gkStep addGKFromOp opContributes
  match op with
  | none => simp
  | some o =>
    match h : o.ext with
    | .undecodable => simp [h]
    | .absent => simp [h, mem_gkSetInsert, eq_comm]
    | .value gk' => simp [h, mem_gkSetInsert, eq_comm]

theorem mem_foldl_gkStep (g : GroupKind) (ops : List (Option Operation)) :
    ∀ acc : List GroupKind,
      g ∈ ops.foldl gkStep acc ↔ (∃ op ∈ ops, opContributes op g) ∨ g ∈ acc := by
  induction ops with
  | nil => intro acc; simp
  | cons op rest ih =>
    intro acc
    simp only [List.foldl_cons]
    rw [ih (gkStep acc op), mem_gkStep]
    constructor
    · rintro (⟨o, ho, hc⟩ | (hc | hg))
      · exact Or.inl ⟨o, List.mem_cons_of_mem _ ho, hc⟩
      · exact Or.inl ⟨op, List.mem_cons_self _ _, hc⟩
      · exact Or.inr hg
    · rintro (⟨o, ho, hc⟩ | hg)
      · rcases List.mem_cons.mp ho with rfl | ho'
        · exact Or.inr (Or.inl hc)
        · exact Or.inl ⟨o, ho', hc⟩
      · exact Or.inr (Or.inr hg)

/-- Membership in the extracted key set of a path: some of the seven
operation slots contributes the key.  An undecodable extension
contributes nothing but does not stop the other slots from
contributing. -/
theorem mem_groupKindsFromPath (gk : GroupKind) (p : PathItem) :
    gk ∈ groupKindsFromPath p ↔ ∃ op ∈ opsOfPathItem p, opContributes op gk := by
  unfold groupKindsFromPath
  rw [mem_foldl_gkStep]
  simp

theorem setFound_map_fst (m : List (GroupKind × Bool)) (gk : GroupKind) :
    (setFound m gk).map Prod.fst = m.map Prod.fst := by
  unfold setFound
  induction m with
  | nil => rfl
  | cons p rest ih =>
    simp only [List.map_cons, List.map_map] at *
    by_cases h : p.1 = gk <;> simp [h, ih]

theorem lookup_isSome_congr {α β : Type} [DecidableEq α]
    {m₁ m₂ : List (α × β)} (h : m₁.map Prod.fst = m₂.map Prod.fst) (a : α) :
    (m₁.lookup a).isSome ↔ (m₂.lookup a).isSome := by
  rw [lookup_isSome_iff_mem_keys, lookup_isSome_iff_mem_keys, h]

theorem find?_some_pred {α : Type} (p : α → Bool) (l : List α) (a : α)
    (h : l.find? p = some a) : p a = true :=
  List.find?_some h

theorem firstDesiredKey_congr {m₁ m₂ : List (GroupKind × Bool)}
    (h : m₁.map Prod.fst = m₂.map Prod.fst) (gks : List GroupKind) :
    firstDesiredKey gks m₁ = firstDesiredKey gks m₂ := by
  unfold firstDesiredKey
  induction gks with
  | nil => rfl
  | cons g rest ih =>
    simp only [List.find?]
    have hiff := lookup_isSome_congr h g
    have heq : (m₁.lookup g).isSome = (m₂.lookup g).isSome := by
      by_cases hx : (m₁.lookup g).isSome = true
      · rw [hx]; exact (hiff.mp hx).symm
      · have h1 : (m₁.lookup g).isSome = false := by
          cases hb : (m₁.lookup g).isSome
          · rfl
          · exact absurd hb hx
        have h2 : (m₂.lookup g).isSome = false := by
          cases hb : (m₂.lookup g).isSome
          · rfl
          · exact absurd (hiff.mpr hb) hx
        rw [h1, h2]
    rw [heq]
    cases hgb : (m₂.lookup g).isSome
    · simpa [hgb] using ih
    · simp [hgb]

theorem foldl_getDesiredPathsStep_map_fst (ps : List (String × PathItem)) :
    ∀ (acc : List String) (m : List (GroupKind × Bool)),
      ((ps.foldl getDesiredPathsStep (acc, m)).2.map Prod.fst) = m.map Prod.fst := by
  induction ps with
  | nil => intro acc m; rfl
  | cons pp rest ih =>
    intro acc m
    rcases h : firstDesiredKey (groupKindsFromPath pp.2) m with _ | gk
    · have hstep : getDesiredPathsStep (acc, m) pp = (acc, m) := by
        unfold getDesiredPathsStep; rw [h]
      rw [List.foldl_cons, hstep]
      exact ih acc m
    · have hstep : getDesiredPathsStep (acc, m) pp = (acc ++ [pp.1], setFound m gk) := by
        unfold getDesiredPathsStep; rw [h]
      rw [List.foldl_cons, hstep, ih _ _, setFound_map_fst]

/-- A path name is kept by the loop of `getDesiredPaths` iff it names a
path one of whose extracted keys is a key of the desired map.  (Whether
a key's found flag is set does not affect keeping; only key membership
does.) -/
theorem mem_keepPaths (ps : List (String × PathItem))
    (desired : List (GroupKind × Bool)) (name : String) :
    name ∈ (ps.foldl getDesiredPathsStep ([], desired)).1 ↔
      ∃ pi : PathItem, (name, pi) ∈ ps ∧
        ∃ gk ∈ groupKindsFromPath pi, (desired.lookup gk).isSome := by
  suffices h : ∀ (acc : List String) (m : List (GroupKind × Bool)),
      m.map Prod.fst = desired.map Prod.fst →
      (name ∈ (ps.foldl getDesiredPathsStep (acc, m)).1 ↔ name ∈ acc ∨
        ∃ pi : PathItem, (name, pi) ∈ ps ∧
          ∃ gk ∈ groupKindsFromPath pi, (desired.lookup gk).isSome) by
    rw [h [] desired rfl]; simp
  induction ps with
  | nil => intro acc m _; simp
  | cons pp rest ih =>
    intro acc m hm
    rcases h : firstDesiredKey (groupKindsFromPath pp.2) m with _ | gk
    · have hstep : getDesiredPathsStep (acc, m) pp = (acc, m) := by
        unfold getDesiredPathsStep; rw [h]
      rw [List.foldl_cons, hstep, ih acc m hm]
      constructor
      · rintro (ha | ⟨pi, hmem, hgk⟩)
        · exact Or.inl ha
        · exact Or.inr ⟨pi, List.mem_cons_of_mem _ hmem, hgk⟩
      · rintro (ha | ⟨pi, hmem, hgk⟩)
        · exact Or.inl ha
        · rcases List.mem_cons.mp hmem with heq | hmem'
          · exfalso
            have hpi : pi = pp.2 := congrArg Prod.snd heq
            have hname : name = pp.1 := congrArg Prod.fst heq
            obtain ⟨gk, hgkmem, hgkl⟩ := hgk
            have h' : (groupKindsFromPath pp.2).find?
                (fun g => (m.lookup g).isSome) = none := h
            exact List.find?_eq_none.mp h' gk (hpi ▸ hgkmem)
              ((lookup_isSome_congr hm gk).mpr hgkl)
          · exact Or.inr ⟨pi, hmem', hgk⟩
    · have hstep : getDesiredPathsStep (acc, m) pp = (acc ++ [pp.1], setFound m gk) := by
        unfold getDesiredPathsStep; rw [h]
      rw [List.foldl_cons, hstep,
        ih (acc ++ [pp.1]) (setFound m gk) (by rw [setFound_map_fst]; exact hm)]
      have h' : (groupKindsFromPath pp.2).find?
          (fun g => (m.lookup g).isSome) = some gk := h
      have hp := find?_some_pred (fun g => (m.lookup g).isSome) _ _ h'
      have hfound : gk ∈ groupKindsFromPath pp.2 ∧ (m.lookup gk).isSome :=
        ⟨List.mem_of_find?_eq_some h', hp⟩
      constructor
      · rintro (ha | ⟨pi, hmem, hgk⟩)
        · rcases List.mem_append.mp ha with ha' | ha'
          · exact Or.inl ha'
          · have : name = pp.1 := by simpa using ha'
            subst this
            exact Or.inr ⟨pp.2, List.mem_cons_self _ _,
              gk, hfound.1, (lookup_isSome_congr hm gk).mp hfound.2⟩
        · exact Or.inr ⟨pi, List.mem_cons_of_mem _ hmem, hgk⟩
      · rintro (ha | ⟨pi, hmem, hgk⟩)
        · exact Or.inl (List.mem_append.mpr (Or.inl ha))
        · rcases List.mem_cons.mp hmem with heq | hmem'
          · have hname : name = pp.1 := congrArg Prod.fst heq
            exact Or.inl (List.mem_append.mpr (Or.inr (by simp [hname])))
          · exact Or.inr ⟨pi, hmem', hgk⟩

theorem lookup_setFound_self (m : List (GroupKind × Bool)) (gk : GroupKind)
    (h : (m.lookup gk).isSome) : (setFound m gk).lookup gk = some true := by
  induction m with
  | nil => simp [List.lookup] at h
  | cons p rest ih =>
    obtain ⟨a, b⟩ := p
    unfold setFound at *
    simp only [List.map_cons]
    by_cases hp : a = gk
    · subst hp
      rw [if_pos rfl]
      simp [List.lookup]
    · rw [if_neg hp]
      have hne : (gk == a) = false := beq_false_of_ne (fun hc => hp hc.symm)
      simp only [List.lookup, hne] at h ⊢
      exact ih h

theorem lookup_setFound_true (m : List (GroupKind × Bool)) (g gk : GroupKind)
    (h : m.lookup g = some true) : (setFound m gk).lookup g = some true := by
  induction m with
  | nil => simp [List.lookup] at h
  | cons p rest ih =>
    obtain ⟨a, b⟩ := p
    unfold setFound at *
    simp only [List.map_cons]
    by_cases hp : g = a
    · subst hp
      simp only [List.lookup, beq_self_eq_true] at h
      by_cases hq : g = gk
      · subst hq; rw [if_pos rfl]; simp [List.lookup]
      · rw [if_neg hq]
        simp only [List.lookup, beq_self_eq_true]
        exact h
    · have hne : (g == a) = false := beq_false_of_ne hp
      simp only [List.lookup, hne] at h
      by_cases hq : a = gk
      · subst hq
        rw [if_pos rfl]
        simp only [List.lookup, hne]
        exact ih h
      · rw [if_neg hq]
        simp only [List.lookup, hne]
        exact ih h

theorem foldl_getDesiredPathsStep_true_persist (ps : List (String × PathItem)) :
    ∀ (acc : List String) (m : List (GroupKind × Bool)) (g : GroupKind),
      m.lookup g = some true →
      ((ps.foldl getDesiredPathsStep (acc, m)).2).lookup g = some true := by
  induction ps with
  | nil => intro acc m g h; exact h
  | cons pp rest ih =>
    intro acc m g h
    rcases hf : firstDesiredKey (groupKindsFromPath pp.2) m with _ | gk
    · have hstep : getDesiredPathsStep (acc, m) pp = (acc, m) := by
        unfold getDesiredPathsStep; rw [hf]
      rw [List.foldl_cons, hstep]
      exact ih acc m g h
    · have hstep : getDesiredPathsStep (acc, m) pp = (acc ++ [pp.1], setFound m gk) := by
        unfold getDesiredPathsStep; rw [hf]
      rw [List.foldl_cons, hstep]
      exact ih _ _ g (lookup_setFound_true m g gk h)

/-- If some path's first desired-matching extracted key is `g`, then the
path loop of `getDesiredPaths` marks `g` found. -/
theorem foldl_getDesiredPathsStep_marks (desired : List (GroupKind × Bool))
    (ps : List (String × PathItem)) :
    ∀ (acc : List String) (m : List (GroupKind × Bool)) (g : GroupKind),
      m.map Prod.fst = desired.map Prod.fst →
      (∃ pr ∈ ps, firstDesiredKey (groupKindsFromPath pr.2) desired = some g) →
      ((ps.foldl getDesiredPathsStep (acc, m)).2).lookup g = some true := by
  induction ps with
  | nil =>
    intro acc m g _ hex
    simp at hex
  | cons pp rest ih =>
    intro acc m g hm hex
    obtain ⟨pr, hpr, hfirst⟩ := hex
    rcases List.mem_cons.mp hpr with rfl | hpr'
    · have hfm : firstDesiredKey (groupKindsFromPath pr.2) m = some g := by
        rw [firstDesiredKey_congr hm]; exact hfirst
      have hstep : getDesiredPathsStep (acc, m) pr = (acc ++ [pr.1], setFound m g) := by
        unfold getDesiredPathsStep; rw [hfm]
      rw [List.foldl_cons, hstep]
      have h' : (groupKindsFromPath pr.2).find?
          (fun x => (desired.lookup x).isSome) = some g := hfirst
      have hp := find?_some_pred (fun x => (desired.lookup x).isSome) _ _ h'
      have hsome : (m.lookup g).isSome := (lookup_isSome_congr hm g).mpr hp
      exact foldl_getDesiredPathsStep_true_persist rest _ _ g
        (lookup_setFound_self m g hsome)
    · rcases hf : firstDesiredKey (groupKindsFromPath pp.2) m with _ | gk
      · have hstep : getDesiredPathsStep (acc, m) pp = (acc, m) := by
          unfold getDesiredPathsStep; rw [hf]
        rw [List.foldl_cons, hstep]
        exact ih acc m g hm ⟨pr, hpr', hfirst⟩
      · have hstep : getDesiredPathsStep (acc, m) pp = (acc ++ [pp.1], setFound m gk) := by
          unfold getDesiredPathsStep; rw [hf]
        rw [List.foldl_cons, hstep]
        exact ih _ _ g (by rw [setFound_map_fst]; exact hm) ⟨pr, hpr', hfirst⟩

theorem mem_lookup_of_nodup {α β : Type} [DecidableEq α]
    (m : List (α × β)) (hnd : (m.map Prod.fst).Nodup) (a : α) (b : β)
    (h : (a, b) ∈ m) : m.lookup a = some b := by
  induction m with
  | nil => simp at h
  | cons p rest ih =>
    rcases List.mem_cons.mp h with rfl | h'
    · simp [List.lookup]
    · have hnd' := hnd
      simp only [List.map_cons, List.nodup_cons] at hnd'
      have hne : a ≠ p.1 := by
        intro hc
        exact hnd'.1 (hc ▸ (List.mem_map.mpr ⟨(a, b), h', rfl⟩))
      simp only [List.lookup, beq_false_of_ne hne]
      exact ih hnd'.2 h'

/-- If the kept-path list ends up empty, the desired map is untouched by
the loop. -/
theorem foldl_getDesiredPathsStep_empty_keep (ps : List (String × PathItem)) :
    ∀ (m : List (GroupKind × Bool)),
      (ps.foldl getDesiredPathsStep ([], m)).1 = [] →
      (ps.foldl getDesiredPathsStep ([], m)).2 = m := by
  induction ps with
  | nil => intro m _; rfl
  | cons pp rest ih =>
    intro m hempty
    rcases hf : firstDesiredKey (groupKindsFromPath pp.2) m with _ | gk
    · have hstep : getDesiredPathsStep (([] : List String), m) pp = ([], m) := by
        unfold getDesiredPathsStep; rw [hf]
      rw [List.foldl_cons, hstep] at hempty ⊢
      exact ih m hempty
    · exfalso
      have hstep : getDesiredPathsStep (([] : List String), m) pp
          = ([pp.1], setFound m gk) := by
        unfold getDesiredPathsStep; rw [hf]; rfl
      rw [List.foldl_cons, hstep] at hempty
      -- the kept list only grows, so it cannot return to []
      have grow : ∀ (qs : List (String × PathItem)) (acc : List String) (mm),
          ∃ suffix, (qs.foldl getDesiredPathsStep (acc, mm)).1 = acc ++ suffix := by
        intro qs
        induction qs with
        | nil => intro acc mm; exact ⟨[], by simp⟩
        | cons q qrest qih =>
          intro acc mm
          rcases hq : firstDesiredKey (groupKindsFromPath q.2) mm with _ | gkq
          · have hstepq : getDesiredPathsStep (acc, mm) q = (acc, mm) := by
              unfold getDesiredPathsStep; rw [hq]
            rw [List.foldl_cons, hstepq]
            exact qih acc mm
          · have hstepq : getDesiredPathsStep (acc, mm) q
                = (acc ++ [q.1], setFound mm gkq) := by
              unfold getDesiredPathsStep; rw [hq]
            rw [List.foldl_cons, hstepq]
            obtain ⟨suffix, hsuf⟩ := qih (acc ++ [q.1]) (setFound mm gkq)
            exact ⟨[q.1] ++ suffix, by rw [hsuf]; simp⟩
      obtain ⟨suffix, hsuf⟩ := grow rest [pp.1] (setFound m gk)
      rw [hsuf] at hempty
      simp at hempty

/-! Concrete keys, operations and documents used in witnesses and
counterexamples. -/

def zeroGK : GroupKind := { group := "", kind := "" }

def keyA : GroupKind := { group := "example.io", kind := "Alpha" }

def keyB : GroupKind := { group := "example.io", kind := "Beta" }

def keyC : GroupKind := { group := "example.io", kind := "Gamma" }

def opWithKey (gk : GroupKind) : Operation :=
  { ext := .value gk, parameters := [], responses := [] }

def opNoExt : Operation := { ext := .absent, parameters := [], responses := [] }

def opBadExt : Operation := { ext := .undecodable, parameters := [], responses := [] }

def itemWithGet (o : Operation) : PathItem := { get := some o }

def pathsW : List (String × PathItem) :=
  [("/a", itemWithGet (opWithKey keyA)), ("/b", itemWithGet (opWithKey keyB)),
   ("/c", itemWithGet (opWithKey keyC))]

def desiredW : List (GroupKind × Bool) := [(keyA, false), (keyC, false)]

/-- **C1 (amended).** A path is kept by `getDesiredPaths` iff at least
one of its present operations contributes a key that is a key of the
DesiredSet, where an operation whose extension decodes contributes the
decoded key, an operation whose extension is absent contributes the zero
key `GroupKind{"", ""}` (because `Extensions.GetObject` leaves the
out-parameter untouched on a missing key), and an operation whose
extension fails to decode contributes no key without aborting the
per-operation loop.  Matching is exact key equality, regardless of the
keys' found flags. -/
theorem getDesiredPaths_keep_iff (ps : List (String × PathItem))
    (defs : List (String × Schema)) (params : List (String × Param))
    (desired : List (GroupKind × Bool)) (keep : List String)
    (m' : List (GroupKind × Bool)) (name : String)
    (h : getDesiredPaths { paths := some ps, definitions := defs, parameters := params }
        desired = .ok (keep, m')) :
    name ∈ keep ↔ ∃ pi : PathItem, (name, pi) ∈ ps ∧
      ∃ gk, (∃ op ∈ opsOfPathItem pi, opContributes op gk)
        ∧ ((desired.lookup gk).isSome = true) := by
  unfold getDesiredPaths at h
  simp only at h
  rcases hfind : ((ps.foldl getDesiredPathsStep ([], desired)).2).find?
      (fun p => !p.2) with _ | p
  · rw [hfind] at h
    have h1 : ps.foldl getDesiredPathsStep ([], desired) = (keep, m') := by
      injection h
    have hkeep : (ps.foldl getDesiredPathsStep ([], desired)).1 = keep :=
      congrArg Prod.fst h1
    rw [← hkeep, mem_keepPaths]
    constructor
    · rintro ⟨pi, hmem, gk, hgk, hl⟩
      exact ⟨pi, hmem, gk, (mem_groupKindsFromPath gk pi).mp hgk, hl⟩
    · rintro ⟨pi, hmem, gk, hc, hl⟩
      exact ⟨pi, hmem, gk, (mem_groupKindsFromPath gk pi).mpr hc, hl⟩
  · rw [hfind] at h
    cases h

/-- Witness for C1: the spec's own example — paths `/a`, `/b`, `/c`
stamped with three different keys and a DesiredSet of the first and
third key keep exactly `/a` and `/c`. -/
theorem getDesiredPaths_keep_iff_witness :
    getDesiredPaths { paths := some pathsW, definitions := [], parameters := [] }
        desiredW = .ok (["/a", "/c"], [(keyA, true), (keyC, true)])
    ∧ ("/a" ∈ ["/a", "/c"] ↔ ∃ pi : PathItem, ("/a", pi) ∈ pathsW ∧
        ∃ gk, (∃ op ∈ opsOfPathItem pi, opContributes op gk)
          ∧ ((desiredW.lookup gk).isSome = true)) :=
  ⟨rfl, getDesiredPaths_keep_iff pathsW [] [] desiredW _ _ "/a" rfl⟩

def pathsCex1 : List (String × PathItem) := [("/p", itemWithGet opNoExt)]

def desiredCex1 : List (GroupKind × Bool) := [(zeroGK, false)]

/-- Counterexample to C1 as stated: a path whose only operation has NO
vendor extension is nevertheless kept (and satisfies the desired set)
when the DesiredSet contains the zero key, because the absent extension
contributes `GroupKind{"", ""}`; yet no operation of the path carries an
extension that decodes to a desired key, so the claim's
keep-iff-decodes-to-a-desired-key test says the path is dropped. -/
theorem getDesiredPaths_keep_cex :
    getDesiredPaths { paths := some pathsCex1, definitions := [], parameters := [] }
        desiredCex1 = .ok (["/p"], [(zeroGK, true)])
    ∧ claimKeepsPath desiredCex1 (itemWithGet opNoExt) = false :=
  ⟨rfl, rfl⟩

/-- **C3 (amended).**  With a DesiredSet that is non-empty, freshly
created (all flags false) and duplicate-free:
(a) if the loop keeps no path, `getDesiredPaths` fails with the
`failed to find path for GroupKind` match error;
(b) a match error names a key that is genuinely unmatched after the
whole pass (its flag is still false) and that belongs to the DesiredSet
— but only that one first unmatched key, not all of them;
(c) filtering succeeds whenever every desired key is, for some path, the
first of that path's extracted keys to belong to the DesiredSet (each
path marks only the one key on which its operation loop broke). -/
theorem getDesiredPaths_match_spec (ps : List (String × PathItem))
    (defs : List (String × Schema)) (params : List (String × Param))
    (desired : List (GroupKind × Bool))
    (hne : desired ≠ []) (hff : ∀ p ∈ desired, p.2 = false)
    (hnd : (desired.map Prod.fst).Nodup) :
    ((ps.foldl getDesiredPathsStep ([], desired)).1 = [] →
      ∃ gk, getDesiredPaths
          { paths := some ps, definitions := defs, parameters := params } desired
        = .error (.unmatched gk))
    ∧ (∀ gk, getDesiredPaths
          { paths := some ps, definitions := defs, parameters := params } desired
        = .error (.unmatched gk) →
      (gk, false) ∈ (ps.foldl getDesiredPathsStep ([], desired)).2
        ∧ ((desired.lookup gk).isSome = true))
    ∧ ((∀ g ∈ desired.map Prod.fst, ∃ pr ∈ ps,
          firstDesiredKey (groupKindsFromPath pr.2) desired = some g) →
      ∃ res, getDesiredPaths
          { paths := some ps, definitions := defs, parameters := params } desired
        = .ok res) := by
  refine ⟨?_, ?_, ?_⟩
  · intro hempty
    obtain ⟨p, rest, rfl⟩ := List.exists_cons_of_ne_nil hne
    have hfinal := foldl_getDesiredPathsStep_empty_keep ps (p :: rest) hempty
    refine ⟨p.1, ?_⟩
    unfold getDesiredPaths
    simp only
    rw [hfinal]
    have hp : p.2 = false := hff p (List.mem_cons_self _ _)
    simp [List.find?, hp]
  · intro gk h
    unfold getDesiredPaths at h
    simp only at h
    rcases hfind : ((ps.foldl getDesiredPathsStep ([], desired)).2).find?
        (fun p => !p.2) with _ | p
    · rw [hfind] at h
      cases h
    · rw [hfind] at h
      have hpgk : p.1 = gk := by
        injection h with h'
        injection h'
      have hmem := List.mem_of_find?_eq_some hfind
      have hfalse := find?_some_pred (fun q : GroupKind × Bool => !q.2) _ _ hfind
      have hp2 : p.2 = false := by
        have hfalse' : (!p.2) = true := hfalse
        cases hb : p.2
        · rfl
        · rw [hb] at hfalse'; simp at hfalse' 
      constructor
      · have : (gk, false) = p := by
          rw [← hpgk, ← hp2]
        rw [this]
        exact hmem
      · rw [lookup_isSome_iff_mem_keys,
          ← foldl_getDesiredPathsStep_map_fst ps [] desired]
        exact List.mem_map.mpr ⟨p, hmem, hpgk⟩
  · intro hall
    have hnone : ((ps.foldl getDesiredPathsStep ([], desired)).2).find?
        (fun p => !p.2) = none := by
      rw [List.find?_eq_none]
      intro q hq
      have hkeys : q.1 ∈ (ps.foldl getDesiredPathsStep ([], desired)).2.map Prod.fst :=
        List.mem_map.mpr ⟨q, hq, rfl⟩
      rw [foldl_getDesiredPathsStep_map_fst ps [] desired] at hkeys
      obtain ⟨pr, hpr, hfirst⟩ := hall q.1 hkeys
      have htrue := foldl_getDesiredPathsStep_marks desired ps [] desired q.1 rfl
        ⟨pr, hpr, hfirst⟩
      have hndfinal : ((ps.foldl getDesiredPathsStep ([], desired)).2.map Prod.fst).Nodup := by
        rw [foldl_getDesiredPathsStep_map_fst ps [] desired]
        exact hnd
      have hq' : (q.1, q.2) ∈ (ps.foldl getDesiredPathsStep ([], desired)).2 := by
        rcases q with ⟨a, b⟩
        exact hq
      have hlq := mem_lookup_of_nodup _ hndfinal q.1 q.2 hq'
      rw [htrue] at hlq
      have : q.2 = true := by injection hlq with h'; exact h'.symm
      simp [this]
    refine ⟨ps.foldl getDesiredPathsStep ([], desired), ?_⟩
    unfold getDesiredPaths
    simp only
    rw [hnone]

/-- Witness for C3: with the two-key DesiredSet and no paths at all, the
kept set is empty and the filter fails with the match error. -/
theorem getDesiredPaths_match_spec_witness :
    ∃ gk, getDesiredPaths
        { paths := some ([] : List (String × PathItem)), definitions := [],
          parameters := [] } desiredW
      = .error (.unmatched gk) := by
  have h := getDesiredPaths_match_spec [] [] [] desiredW (by decide) (by decide)
    (by decide)
  exact h.1 rfl

def itemCex3 : PathItem :=
  { get := some (opWithKey keyA), put := some (opWithKey keyB) }

def pathsCex3 : List (String × PathItem) := [("/p", itemCex3)]

def desiredCex3 : List (GroupKind × Bool) := [(keyA, false), (keyB, false)]

/-- Counterexample to C3 as stated: both desired keys appear among the
extracted operation keys of path `/p`, so by the claim filtering must
succeed; but the Go loop `break`s after marking the first matching key
of a path, so only one of the two keys is marked found and
`getDesiredPaths` fails with a match error naming the other. -/
theorem getDesiredPaths_match_cex :
    (keyA ∈ groupKindsFromPath itemCex3 ∧ keyB ∈ groupKindsFromPath itemCex3)
    ∧ getDesiredPaths { paths := some pathsCex3, definitions := [], parameters := [] }
        desiredCex3 = .error (.unmatched keyB) :=
  ⟨⟨by decide, by decide⟩, rfl⟩

/-! ## DiscoveryGate (`waitForDesiredResources`, src/unnamed/part_005
lines 248-316)

The Go function copies the keys of `desiredResources` into a fresh local
`GKfound` map with all flags false, then polls
`Discovery().ServerPreferredResources()` under
`wait.PollUntilContextTimeout`: a failed call logs and retries; a
successful call parses each list's group-version, marks every served
(group, kind) that is a key of `GKfound`, and returns success the moment
all flags are true.  On budget expiry it logs the still-missing keys and
returns `fmt.Errorf("not all GroupKinds discoverable after %v. Error: %w",
discoveryPollTimeout, err)` — whose message carries the duration and the
wrapped deadline error, not the keys.  `desiredResources` itself is only
read (lines 249-252) and never written. -/

/-- One entry of the `ServerPreferredResources` answer:
`metav1.APIResourceList`, keeping its `GroupVersion` string and the
`Kind`s of its `APIResources`. -/
structure APIResourceList where
  groupVersion : String
  kinds : List String

/-- One poll of the discovery endpoint: the call failed, or returned
these resource lists. -/
inductive DiscoveryPoll where
  | fail
  | ok (lists : List APIResourceList)

/-- Embeds `schema.ParseGroupVersion` (k8s.io/apimachinery): `""` and
`"/"` parse to the empty GroupVersion; zero slashes make the whole
string the version (empty group); exactly one slash splits group from
version; more are an error. -/
def parseGroupVersion (gv : String) : Except String (String × String) :=
  if gv = "" ∨ gv = "/" then .ok ("", "")
  else
    match gv.toList.count '/' with
    | 0 => .ok ("", gv)
    | 1 =>
      match splitAtFirst '/' gv.toList with
      | some (g, v) => .ok (String.mk g, String.mk v)
      | none => .error "unexpected GroupVersion string"
    | _ => .error "unexpected GroupVersion string"

/-- The marking pass over one resource list's kinds:
`if _, ok := GKfound[discoveredGK]; ok && !GKfound[discoveredGK] { GKfound[discoveredGK] = true }`. -/
def markKind (g : String) (st : List (GroupKind × Bool)) (kind : String) :
    List (GroupKind × Bool) :=
  let discovered : GroupKind := { group := g, kind := kind }
  if st.lookup discovered = some false then setFound st discovered else st

/-- The marking pass over one `APIResourceList`: skip it if its
group-version does not parse, otherwise mark every served kind. -/
def markList (st : List (GroupKind × Bool)) (l : APIResourceList) :
    List (GroupKind × Bool) :=
  match parseGroupVersion l.groupVersion with
  | .error _ => st
  | .ok (g, _) => l.kinds.foldl (markKind g) st

/-- The marking effect of one whole poll (a failed call marks
nothing). -/
def markPoll (st : List (GroupKind × Bool)) : DiscoveryPoll →
    List (GroupKind × Bool)
  | .fail => st
  | .ok lists => lists.foldl markList st

/-- `GKfound := make(map); for gk := range desiredResources { GKfound[gk] = false }`. -/
def initGKfound (desired : List (GroupKind × Bool)) : List (GroupKind × Bool) :=
  desired.map (fun p => (p.1, false))

/-- The `allFound` check of `waitFunc`. -/
def gateAllFound (st : List (GroupKind × Bool)) : Bool :=
  st.all (fun p => p.2)

/-- Embeds Go `strings.Join(elems, ", ")`. -/
def joinComma : List String → String
  | [] => ""
  | [s] => s
  | s :: rest => s ++ ", " ++ joinComma rest

/-- Embeds `formatNotFoundGroupKinds`: the `String()` forms of the
not-yet-found keys joined with `", "`, or `"None"`. -/
def formatNotFoundGroupKinds (st : List (GroupKind × Bool)) : String :=
  let notFound := (st.filter (fun p => !p.2)).map (fun p => p.1.toStr)
  if notFound.isEmpty then "None" else joinComma notFound

/-- The exact message of the error `waitForDesiredResources` returns on
expiry: `fmt.Errorf("not all GroupKinds discoverable after %v. Error: %w",
discoveryPollTimeout, err)` with `discoveryPollTimeout = 5 * time.Minute`
and `err` the poll's `context.DeadlineExceeded`. -/
def timeoutErrMsg : String :=
  "not all GroupKinds discoverable after 5m0s. Error: context deadline exceeded"

/-- The error-level log line emitted just before returning the timeout
error, which is where the missing keys are enumerated. -/
def timeoutLogLine (st : List (GroupKind × Bool)) : String :=
  "Timed out waiting for all GroupKinds. Still missing: "
    ++ formatNotFoundGroupKinds st

/-- The gate's outcome: success after consuming that many polls, or the
timeout error message. -/
inductive GateResult where
  | success (pollsUsed : Nat)
  | timeout (errMsg : String)
deriving DecidableEq, Repr

/-- The poll loop of `waitForDesiredResources` under
`wait.PollUntilContextTimeout`: one entry of `polls` per tick, the empty
list marking the expired budget.  Returns the outcome, the final
`GKfound`, and the error-level log lines. -/
def waitLoop : List DiscoveryPoll → Nat → List (GroupKind × Bool) →
    List String → GateResult × List (GroupKind × Bool) × List String
  | [], _, st, log =>
    (.timeout timeoutErrMsg, st, log ++ [timeoutLogLine st])
  | .fail :: rest, n, st, log =>
    waitLoop rest (n + 1) st (log ++ ["Discovery API call failed (will retry)"])
  | .ok lists :: rest, n, st, log =>
    let st' := lists.foldl markList st
    if gateAllFound st' then (.success (n + 1), st', log)
    else waitLoop rest (n + 1) st' log

/-- Embeds `waitForDesiredResources` (src/unnamed/part_005 lines
248-316) against a given sequence of discovery answers. -/
def waitForDesiredResources (polls : List DiscoveryPoll)
    (desired : List (GroupKind × Bool)) :
    GateResult × List (GroupKind × Bool) × List String :=
  waitLoop polls 0 (initGKfound desired) []

/-- The `desiredResources` map as `waitForDesiredResources` leaves it:
the function reads the map's keys to seed `GKfound` and never assigns to
it, so it is returned unchanged. -/
def gateDesiredAfter (_polls : List DiscoveryPoll)
    (desired : List (GroupKind × Bool)) : List (GroupKind × Bool) :=
  desired

/-- The (group, kind) pairs a poll serves, declaratively: for each list
whose group-version parses, its group paired with each of its kinds. -/
def servedOfLists : List APIResourceList → List GroupKind
  | [] => []
  | l :: rest =>
    (match parseGroupVersion l.groupVersion with
      | .error _ => []
      | .ok (g, _) => l.kinds.map (fun k => { group := g, kind := k }))
      ++ servedOfLists rest

/-- The (group, kind) pairs served by one poll. -/
def servedKeys : DiscoveryPoll → List GroupKind
  | .fail => []
  | .ok lists => servedOfLists lists

/-- All keys of `st` are either already found in `st` or served by some
poll in `ps`. -/
def coveredFrom (st : List (GroupKind × Bool)) (ps : List DiscoveryPoll) : Prop :=
  ∀ g ∈ st.map Prod.fst, st.lookup g = some true ∨ ∃ p ∈ ps, g ∈ servedKeys p

instance (st : List (GroupKind × Bool)) (ps : List DiscoveryPoll) :
    Decidable (coveredFrom st ps) := by
  unfold coveredFrom
  infer_instance

/-! Marking facts for the discovery gate (claims C4 and C5). -/

theorem lookup_setFound_other (m : List (GroupKind × Bool)) (x gk : GroupKind)
    (h : x ≠ gk) : (setFound m gk).lookup x = m.lookup x := by
  induction m with
  | nil => rfl
  | cons p rest ih =>
    obtain ⟨a, b⟩ := p
    unfold setFound at *
    simp only [List.map_cons]
    by_cases hq : a = gk
    · subst hq
      rw [if_pos rfl]
      have hne : (x == a) = false := beq_false_of_ne h
      simp only [List.lookup, hne]
      exact ih
    · rw [if_neg hq]
      by_cases hx : x = a
      · simp [List.lookup, hx]
      · have hne : (x == a) = false := beq_false_of_ne hx
        simp only [List.lookup, hne]
        exact ih

theorem markKind_map_fst (g : String) (st : List (GroupKind × Bool)) (k : String) :
    (markKind g st k).map Prod.fst = st.map Prod.fst := by
  unfold markKind
  by_cases h : st.lookup { group := g, kind := k } = some false
  · rw [if_pos h, setFound_map_fst]
  · rw [if_neg h]

theorem markKind_lookup_true_iff (g : String) (st : List (GroupKind × Bool))
    (k : String) (x : GroupKind) :
    (markKind g st k).lookup x = some true ↔
      st.lookup x = some true
        ∨ ((st.lookup x).isSome ∧ x = { group := g, kind := k }) := by
  unfold markKind
  by_cases hd : st.lookup { group := g, kind := k } = some false
  · rw [if_pos hd]
    by_cases hx : x = { group := g, kind := k }
    · rw [hx, lookup_setFound_self st _ (by rw [hd]; rfl)]
      simp [hd]
    · rw [lookup_setFound_other st x _ hx]
      simp [hx]
  · rw [if_neg hd]
    constructor
    · intro h; exact Or.inl h
    · rintro (h | ⟨hs, rfl⟩)
      · exact h
      · rcases hl : st.lookup { group := g, kind := k } with _ | b
        · rw [hl] at hs; simp at hs
        · cases b
          · exact absurd hl hd
          · exact hl

theorem markKinds_map_fst (g : String) (kinds : List String) :
    ∀ st : List (GroupKind × Bool),
      ((kinds.foldl (markKind g) st).map Prod.fst) = st.map Prod.fst := by
  induction kinds with
  | nil => intro st; rfl
  | cons k rest ih =>
    intro st
    rw [List.foldl_cons, ih (markKind g st k), markKind_map_fst]

theorem markKinds_lookup_true_iff (g : String) (kinds : List String) :
    ∀ (st : List (GroupKind × Bool)) (x : GroupKind),
      ((kinds.foldl (markKind g) st).lookup x = some true) ↔
        st.lookup x = some true
          ∨ ((st.lookup x).isSome ∧ ∃ k ∈ kinds, x = { group := g, kind := k }) := by
  induction kinds with
  | nil => intro st x; simp
  | cons k rest ih =>
    intro st x
    rw [List.foldl_cons, ih (markKind g st k) x, markKind_lookup_true_iff]
    have hs : ((markKind g st k).lookup x).isSome ↔ (st.lookup x).isSome :=
      lookup_isSome_congr (markKind_map_fst g st k) x
    constructor
    · rintro ((h | ⟨hsome, rfl⟩) | ⟨hsome, k', hk', rfl⟩)
      · exact Or.inl h
      · exact Or.inr ⟨hsome, k, List.mem_cons_self _ _, rfl⟩
      · exact Or.inr ⟨hs.mp hsome, k', List.mem_cons_of_mem _ hk', rfl⟩
    · rintro (h | ⟨hsome, k', hk', rfl⟩)
      · exact Or.inl (Or.inl h)
      · rcases List.mem_cons.mp hk' with rfl | hk''
        · exact Or.inl (Or.inr ⟨hsome, rfl⟩)
        · exact Or.inr ⟨hs.mpr hsome, k', hk'', rfl⟩

theorem markList_map_fst (st : List (GroupKind × Bool)) (l : APIResourceList) :
    (markList st l).map Prod.fst = st.map Prod.fst := by
  unfold markList
  rcases parseGroupVersion l.groupVersion with _ | ⟨g, v⟩
  · rfl
  · exact markKinds_map_fst _ _ st

theorem markList_lookup_true_iff (st : List (GroupKind × Bool))
    (l : APIResourceList) (x : GroupKind) :
    ((markList st l).lookup x = some true) ↔
      st.lookup x = some true
        ∨ ((st.lookup x).isSome ∧ x ∈ servedOfLists [l]) := by
  unfold markList servedOfLists
  rcases hp : parseGroupVersion l.groupVersion with _ | ⟨g, v⟩
  · simp [servedOfLists]
  · rw [markKinds_lookup_true_iff]
    simp only [servedOfLists, List.append_nil, List.mem_map]
    constructor
    · rintro (h | ⟨hsome, k, hk, rfl⟩)
      · exact Or.inl h
      · exact Or.inr ⟨hsome, k, hk, rfl⟩
    · rintro (h | ⟨hsome, k, hk, rfl⟩)
      · exact Or.inl h
      · exact Or.inr ⟨hsome, k, hk, rfl⟩

theorem servedOfLists_append (l₁ l₂ : List APIResourceList) :
    servedOfLists (l₁ ++ l₂) = servedOfLists l₁ ++ servedOfLists l₂ := by
  induction l₁ with
  | nil => rfl
  | cons l rest ih =>
    show servedOfLists (l :: (rest ++ l₂)) = servedOfLists (l :: rest) ++ servedOfLists l₂
    rw [servedOfLists, servedOfLists, ih, List.append_assoc]

theorem markLists_map_fst (lists : List APIResourceList) :
    ∀ st : List (GroupKind × Bool),
      ((lists.foldl markList st).map Prod.fst) = st.map Prod.fst := by
  induction lists with
  | nil => intro st; rfl
  | cons l rest ih =>
    intro st
    rw [List.foldl_cons, ih (markList st l), markList_map_fst]

theorem markLists_lookup_true_iff (lists : List APIResourceList) :
    ∀ (st : List (GroupKind × Bool)) (x : GroupKind),
      ((lists.foldl markList st).lookup x = some true) ↔
        st.lookup x = some true
          ∨ ((st.lookup x).isSome ∧ x ∈ servedOfLists lists) := by
  induction lists with
  | nil => intro st x; simp [servedOfLists]
  | cons l rest ih =>
    intro st x
    rw [List.foldl_cons, ih (markList st l) x, markList_lookup_true_iff]
    have hs : ((markList st l).lookup x).isSome ↔ (st.lookup x).isSome :=
      lookup_isSome_congr (markList_map_fst st l) x
    have hserved : servedOfLists (l :: rest)
        = servedOfLists [l] ++ servedOfLists rest := by
      have : l :: rest = [l] ++ rest := rfl
      rw [this, servedOfLists_append]
    rw [hserved]
    simp only [List.mem_append]
    constructor
    · rintro ((h | ⟨hsome, hmem⟩) | ⟨hsome, hmem⟩)
      · exact Or.inl h
      · exact Or.inr ⟨hsome, Or.inl hmem⟩
      · exact Or.inr ⟨hs.mp hsome, Or.inr hmem⟩
    · rintro (h | ⟨hsome, hmem | hmem⟩)
      · exact Or.inl (Or.inl h)
      · exact Or.inl (Or.inr ⟨hsome, hmem⟩)
      · exact Or.inr ⟨hs.mpr hsome, hmem⟩

theorem markPoll_map_fst (st : List (GroupKind × Bool)) (p : DiscoveryPoll) :
    (markPoll st p).map Prod.fst = st.map Prod.fst := by
  cases p with
  | fail => rfl
  | ok lists => exact markLists_map_fst lists st

theorem markPoll_lookup_true_iff (st : List (GroupKind × Bool))
    (p : DiscoveryPoll) (x : GroupKind) :
    ((markPoll st p).lookup x = some true) ↔
      st.lookup x = some true ∨ ((st.lookup x).isSome ∧ x ∈ servedKeys p) := by
  cases p with
  | fail => simp [markPoll, servedKeys]
  | ok lists => exact markLists_lookup_true_iff lists st x

theorem markPolls_map_fst (polls : List DiscoveryPoll) :
    ∀ st : List (GroupKind × Bool),
      ((polls.foldl markPoll st).map Prod.fst) = st.map Prod.fst := by
  induction polls with
  | nil => intro st; rfl
  | cons p rest ih =>
    intro st
    rw [List.foldl_cons, ih (markPoll st p), markPoll_map_fst]

theorem markPolls_lookup_true_iff (polls : List DiscoveryPoll) :
    ∀ (st : List (GroupKind × Bool)) (x : GroupKind),
      ((polls.foldl markPoll st).lookup x = some true) ↔
        st.lookup x = some true
          ∨ ((st.lookup x).isSome ∧ ∃ p ∈ polls, x ∈ servedKeys p) := by
  induction polls with
  | nil => intro st x; simp
  | cons p rest ih =>
    intro st x
    rw [List.foldl_cons, ih (markPoll st p) x, markPoll_lookup_true_iff]
    have hs : ((markPoll st p).lookup x).isSome ↔ (st.lookup x).isSome :=
      lookup_isSome_congr (markPoll_map_fst st p) x
    constructor
    · rintro ((h | ⟨hsome, hmem⟩) | ⟨hsome, q, hq, hmem⟩)
      · exact Or.inl h
      · exact Or.inr ⟨hsome, p, List.mem_cons_self _ _, hmem⟩
      · exact Or.inr ⟨hs.mp hsome, q, List.mem_cons_of_mem _ hq, hmem⟩
    · rintro (h | ⟨hsome, q, hq, hmem⟩)
      · exact Or.inl (Or.inl h)
      · rcases List.mem_cons.mp hq with rfl | hq'
        · exact Or.inl (Or.inr ⟨hsome, hmem⟩)
        · exact Or.inr ⟨hs.mpr hsome, q, hq', hmem⟩

theorem lookup_mem {α β : Type} [DecidableEq α] (m : List (α × β)) (a : α) (b : β)
    (h : m.lookup a = some b) : (a, b) ∈ m := by
  induction m with
  | nil => simp [List.lookup] at h
  | cons p rest ih =>
    by_cases hx : a = p.1
    · simp only [List.lookup, beq_iff_eq.mpr hx] at h
      injection h with h'
      subst h'
      exact hx ▸ (List.mem_cons_self _ _ : (p.1, p.2) ∈ _)
    · simp only [List.lookup, beq_false_of_ne hx] at h
      exact List.mem_cons_of_mem _ (ih h)

theorem gateAllFound_iff_lookup (st : List (GroupKind × Bool))
    (hnd : (st.map Prod.fst).Nodup) :
    gateAllFound st = true ↔ ∀ g ∈ st.map Prod.fst, st.lookup g = some true := by
  unfold gateAllFound
  rw [List.all_eq_true]
  constructor
  · intro h g hg
    obtain ⟨p, hp, hfst⟩ := List.mem_map.mp hg
    have hb : p.2 = true := by simpa using h p hp
    have := mem_lookup_of_nodup st hnd p.1 p.2 (by
      rcases p with ⟨a, b⟩; exact hp)
    rw [hfst] at this
    rw [this, hb]
  · intro h p hp
    have hg : p.1 ∈ st.map Prod.fst := List.mem_map.mpr ⟨p, hp, rfl⟩
    have hl := h p.1 hg
    have hl' := mem_lookup_of_nodup st hnd p.1 p.2 (by
      rcases p with ⟨a, b⟩; exact hp)
    have h2 : p.2 = true := by
      rw [hl'] at hl
      injection hl
    simp [h2]

/-- Coverage by a poll sequence is exactly the all-found test on the
state those polls produce. -/
theorem covered_iff_gateAllFound (st : List (GroupKind × Bool))
    (polls : List DiscoveryPoll) (hnd : (st.map Prod.fst).Nodup) :
    coveredFrom st polls ↔ gateAllFound (polls.foldl markPoll st) = true := by
  have hkeys := markPolls_map_fst polls st
  rw [gateAllFound_iff_lookup _ (by rw [hkeys]; exact hnd)]
  unfold coveredFrom
  constructor
  · intro h g hg
    rw [hkeys] at hg
    rw [markPolls_lookup_true_iff]
    rcases h g hg with h' | ⟨p, hp, hmem⟩
    · exact Or.inl h'
    · exact Or.inr ⟨(lookup_isSome_iff_mem_keys st g).mpr hg, p, hp, hmem⟩
  · intro h g hg
    have := h g (by rw [hkeys]; exact hg)
    rw [markPolls_lookup_true_iff] at this
    rcases this with h' | ⟨_, p, hp, hmem⟩
    · exact Or.inl h'
    · exact Or.inr ⟨p, hp, hmem⟩

theorem getLast?_append_singleton {α : Type} (l : List α) (a : α) :
    (l ++ [a]).getLast? = some a := by
  induction l with
  | nil => rfl
  | cons x rest ih =>
    rcases rest with _ | ⟨y, ys⟩
    · rfl
    · simpa using ih

/-- On expiry the loop returns the fixed timeout message, its final
state is every poll's marking applied, and the last log line is the
`Still missing` enumeration of that final state. -/
theorem waitLoop_timeout (polls : List DiscoveryPoll) :
    ∀ (n : Nat) (st : List (GroupKind × Bool)) (log : List String) (msg : String),
      (waitLoop polls n st log).1 = .timeout msg →
      msg = timeoutErrMsg
        ∧ (waitLoop polls n st log).2.1 = polls.foldl markPoll st
        ∧ (waitLoop polls n st log).2.2.getLast?
            = some (timeoutLogLine (polls.foldl markPoll st)) := by
  induction polls with
  | nil =>
    intro n st log msg h
    simp only [waitLoop] at h ⊢
    refine ⟨?_, rfl, getLast?_append_singleton _ _⟩
    injection h with h'
    exact h'.symm
  | cons p rest ih =>
    intro n st log msg h
    cases p with
    | fail =>
      simp only [waitLoop] at h ⊢
      exact ih _ _ _ _ h
    | ok lists =>
      simp only [waitLoop] at h ⊢
      by_cases hall : gateAllFound (lists.foldl markList st) = true
      · rw [if_pos hall] at h
        cases h
      · rw [if_neg hall] at h
        rw [if_neg hall]
        have := ih _ _ _ _ h
        simpa [markPoll] using this

/-- If the loop is entered with the all-found test false, a timeout
leaves it false: the gate never times out with everything found. -/
theorem waitLoop_timeout_not_allFound (polls : List DiscoveryPoll) :
    ∀ (n : Nat) (st : List (GroupKind × Bool)) (log : List String) (msg : String),
      gateAllFound st = false →
      (waitLoop polls n st log).1 = .timeout msg →
      gateAllFound (waitLoop polls n st log).2.1 = false := by
  induction polls with
  | nil =>
    intro n st log msg hst _
    simpa [waitLoop] using hst
  | cons p rest ih =>
    intro n st log msg hst h
    cases p with
    | fail =>
      simp only [waitLoop] at h ⊢
      exact ih _ _ _ _ hst h
    | ok lists =>
      simp only [waitLoop] at h ⊢
      by_cases hall : gateAllFound (lists.foldl markList st) = true
      · rw [if_pos hall] at h
        cases h
      · rw [if_neg hall] at h
        rw [if_neg hall]
        exact ih _ _ _ _ (by simpa using hall) h

/-- Success happens on and only on the first all-found checkpoint: the
consumed polls cover the keys and no shorter prefix does. -/
theorem waitLoop_success (polls : List DiscoveryPoll) :
    ∀ (n : Nat) (st : List (GroupKind × Bool)) (log : List String) (k : Nat),
      gateAllFound st = false →
      (waitLoop polls n st log).1 = .success k →
      n < k ∧ k - n ≤ polls.length
        ∧ gateAllFound ((polls.take (k - n)).foldl markPoll st) = true
        ∧ ∀ i < k - n, gateAllFound ((polls.take i).foldl markPoll st) = false := by
  induction polls with
  | nil =>
    intro n st log k _ h
    simp [waitLoop] at h
  | cons p rest ih =>
    intro n st log k hst h
    cases p with
    | fail =>
      simp only [waitLoop] at h
      obtain ⟨h1, h2, h3, h4⟩ := ih (n + 1) st _ k hst h
      have hk : n < k := Nat.lt_of_succ_lt_succ (Nat.lt_succ_of_lt h1)
      have hsub : k - n = (k - (n + 1)) + 1 := by omega
      refine ⟨by omega, by simp [hsub]; omega, ?_, ?_⟩
      · rw [hsub]
        simpa [markPoll] using h3
      · intro i hi
        rcases i with _ | i'
        · simpa using hst
        · have : i' < k - (n + 1) := by omega
          simpa [markPoll] using h4 i' this
    | ok lists =>
      simp only [waitLoop] at h
      by_cases hall : gateAllFound (lists.foldl markList st) = true
      · rw [if_pos hall] at h
        have hk : k = n + 1 := by
          injection h with h'
          exact h'.symm
        subst hk
        have hsub : n + 1 - n = 1 := by omega
        refine ⟨by omega, by simp [hsub], ?_, ?_⟩
        · rw [hsub]
          simpa [markPoll] using hall
        · intro i hi
          rw [hsub] at hi
          have : i = 0 := by omega
          subst this
          simpa using hst
      · rw [if_neg hall] at h
        obtain ⟨h1, h2, h3, h4⟩ := ih (n + 1) (lists.foldl markList st) _ k
          (by simpa using hall) h
        have hsub : k - n = (k - (n + 1)) + 1 := by omega
        refine ⟨by omega, by simp [hsub]; omega, ?_, ?_⟩
        · rw [hsub]
          simpa [markPoll] using h3
        · intro i hi
          rcases i with _ | i'
          · simpa using hst
          · have : i' < k - (n + 1) := by omega
            simpa [markPoll] using h4 i' this

/-- Completeness: entering the loop with keys still missing, if the
whole budget's markings reach all-found, the loop succeeds. -/
theorem waitLoop_success_exists (polls : List DiscoveryPoll) :
    ∀ (n : Nat) (st : List (GroupKind × Bool)) (log : List String),
      gateAllFound st = false →
      gateAllFound (polls.foldl markPoll st) = true →
      ∃ k, (waitLoop polls n st log).1 = .success k := by
  induction polls with
  | nil =>
    intro n st log hst hall
    simp only [List.foldl_nil] at hall
    rw [hall] at hst
    cases hst
  | cons p rest ih =>
    intro n st log hst hall
    cases p with
    | fail =>
      simp only [waitLoop]
      exact ih (n + 1) st _ hst (by simpa [markPoll] using hall)
    | ok lists =>
      simp only [waitLoop]
      by_cases h : gateAllFound (lists.foldl markList st) = true
      · rw [if_pos h]
        exact ⟨n + 1, rfl⟩
      · rw [if_neg h]
        exact ih (n + 1) (lists.foldl markList st) _ (by simpa using h)
          (by simpa [markPoll] using hall)

theorem initGKfound_map_fst (desired : List (GroupKind × Bool)) :
    (initGKfound desired).map Prod.fst = desired.map Prod.fst := by
  unfold initGKfound
  induction desired with
  | nil => rfl
  | cons p rest ih => simp [ih]

theorem initGKfound_lookup (desired : List (GroupKind × Bool)) (g : GroupKind)
    (h : g ∈ desired.map Prod.fst) :
    (initGKfound desired).lookup g = some false := by
  unfold initGKfound
  induction desired with
  | nil => simp at h
  | cons p rest ih =>
    by_cases hp : g = p.1
    · simp [List.lookup, hp]
    · have hne : (g == p.1) = false := beq_false_of_ne hp
      simp only [List.map_cons, List.lookup, hne]
      refine ih ?_
      rcases List.mem_map.mp h with ⟨q, hq, hfst⟩
      rcases List.mem_cons.mp hq with rfl | hq'
      · exact absurd hfst.symm hp
      · exact List.mem_map.mpr ⟨q, hq', hfst⟩

theorem gateAllFound_init_false (desired : List (GroupKind × Bool))
    (hne : desired ≠ []) : gateAllFound (initGKfound desired) = false := by
  obtain ⟨p, rest, rfl⟩ := List.exists_cons_of_ne_nil hne
  simp [gateAllFound, initGKfound]

theorem toList_append (a b : String) : (a ++ b).toList = a.toList ++ b.toList := by
  simp only [String.toList, String.data_append]

theorem infix_joinComma (s : String) (l : List String) (h : s ∈ l) :
    s.toList <:+: (joinComma l).toList := by
  induction l with
  | nil => simp at h
  | cons x rest ih =>
    rcases rest with _ | ⟨y, ys⟩
    · have : s = x := by simpa using h
      subst this
      exact ⟨[], [], by simp [joinComma]⟩
    · rcases List.mem_cons.mp h with rfl | h'
      · refine ⟨[], (", " ++ joinComma (y :: ys)).toList, ?_⟩
        show s.toList ++ _ = _
        rw [show joinComma (s :: y :: ys) = s ++ ", " ++ joinComma (y :: ys) from rfl]
        rw [toList_append, toList_append, toList_append, List.append_assoc]
      · obtain ⟨u, v, huv⟩ := ih h'
        refine ⟨(x ++ ", ").toList ++ u, v, ?_⟩
        rw [show joinComma (x :: y :: ys) = x ++ ", " ++ joinComma (y :: ys) from rfl]
        rw [toList_append, toList_append, ← huv]
        simp

theorem infix_append_string (pre s t : String) (h : s.toList <:+: t.toList) :
    s.toList <:+: (pre ++ t).toList := by
  obtain ⟨u, v, huv⟩ := h
  exact ⟨pre.toList ++ u, v, by rw [toList_append, ← huv]; simp⟩

/-- A key whose flag is false in `st` is named (as an infix) in the
`Still missing` log line for `st`. -/
theorem missing_named_in_log (st : List (GroupKind × Bool)) (g : GroupKind)
    (h : (g, false) ∈ st) :
    g.toStr.toList <:+: (timeoutLogLine st).toList := by
  unfold timeoutLogLine formatNotFoundGroupKinds
  have hmem : g.toStr ∈ (st.filter (fun p => !p.2)).map (fun p => p.1.toStr) :=
    List.mem_map.mpr ⟨(g, false), List.mem_filter.mpr ⟨h, rfl⟩, rfl⟩
  apply infix_append_string
  rcases hl : (st.filter (fun p => !p.2)).map (fun p => p.1.toStr) with _ | ⟨x, xs⟩
  · rw [hl] at hmem
    simp at hmem
  · rw [hl] at hmem ⊢
    simp only [List.isEmpty_cons, Bool.false_eq_true, if_false]
    exact infix_joinComma _ _ hmem

theorem waitLoop_state_map_fst (polls : List DiscoveryPoll) :
    ∀ (n : Nat) (st : List (GroupKind × Bool)) (log : List String),
      (waitLoop polls n st log).2.1.map Prod.fst = st.map Prod.fst := by
  induction polls with
  | nil => intro n st log; rfl
  | cons p rest ih =>
    intro n st log
    cases p with
    | fail => exact ih (n + 1) st _
    | ok lists =>
      simp only [waitLoop]
      by_cases h : gateAllFound (lists.foldl markList st) = true
      · rw [if_pos h]
        exact markLists_map_fst lists st
      · rw [if_neg h]
        rw [ih (n + 1) (lists.foldl markList st) _, markLists_map_fst]

/-- **C4 (amended).** For every sequence of discovery poll results and
every non-empty, duplicate-free DesiredSet: a poll cycle whose discovery
call fails is retried at the next tick rather than treated as fatal; the
gate returns success exactly on the first poll cycle by which every
desired key has been observed among the cluster's served (group, kind)
pairs; and if the wait budget elapses before that, it fails with the
fixed timeout error — whose message reports the elapsed budget and the
wrapped deadline error but does NOT name the missing keys — while every
still-missing key is named in the error-level log line emitted alongside
the returned error. -/
theorem waitForDesiredResources_spec (polls : List DiscoveryPoll)
    (desired : List (GroupKind × Bool)) (hne : desired ≠ [])
    (hnd : (desired.map Prod.fst).Nodup) :
    (∀ (rest : List DiscoveryPoll) (n : Nat) (st : List (GroupKind × Bool))
        (log : List String),
      waitLoop (DiscoveryPoll.fail :: rest) n st log
        = waitLoop rest (n + 1) st
            (log ++ ["Discovery API call failed (will retry)"]))
    ∧ (∀ k, (waitForDesiredResources polls desired).1 = .success k →
        1 ≤ k ∧ k ≤ polls.length
          ∧ coveredFrom (initGKfound desired) (polls.take k)
          ∧ ∀ i < k, ¬coveredFrom (initGKfound desired) (polls.take i))
    ∧ (coveredFrom (initGKfound desired) polls →
        ∃ k, (waitForDesiredResources polls desired).1 = .success k)
    ∧ (∀ msg, (waitForDesiredResources polls desired).1 = .timeout msg →
        msg = timeoutErrMsg
          ∧ ¬coveredFrom (initGKfound desired) polls
          ∧ ∀ g ∈ desired.map Prod.fst, (∀ p ∈ polls, g ∉ servedKeys p) →
              g.toStr.toList <:+:
                (((waitForDesiredResources polls desired).2.2.getLast?).getD
                  "").toList) := by
  have hndi : ((initGKfound desired).map Prod.fst).Nodup := by
    rw [initGKfound_map_fst]; exact hnd
  have hfalse : gateAllFound (initGKfound desired) = false :=
    gateAllFound_init_false desired hne
  refine ⟨fun rest n st log => rfl, ?_, ?_, ?_⟩
  · intro k h
    obtain ⟨h1, h2, h3, h4⟩ := waitLoop_success polls 0 (initGKfound desired) [] k
      hfalse h
    rw [Nat.sub_zero] at h2 h3 h4
    refine ⟨h1, h2, ?_, ?_⟩
    · exact (covered_iff_gateAllFound _ _ hndi).mpr h3
    · intro i hi hc
      have := (covered_iff_gateAllFound _ _ hndi).mp hc
      rw [h4 i hi] at this
      cases this
  · intro hcov
    exact waitLoop_success_exists polls 0 (initGKfound desired) [] hfalse
      ((covered_iff_gateAllFound _ _ hndi).mp hcov)
  · intro msg h
    obtain ⟨hmsg, hstate, hlog⟩ := waitLoop_timeout polls 0 (initGKfound desired) []
      msg h
    refine ⟨hmsg, ?_, ?_⟩
    · intro hc
      have hfold := (covered_iff_gateAllFound _ _ hndi).mp hc
      have hnf := waitLoop_timeout_not_allFound polls 0 (initGKfound desired) []
        msg hfalse h
      rw [hstate, hfold] at hnf
      cases hnf
    · intro g hg hserved
      have hkey : g ∈ (initGKfound desired).map Prod.fst := by
        rw [initGKfound_map_fst]; exact hg
      have hinit : (initGKfound desired).lookup g = some false :=
        initGKfound_lookup desired g hg
      have hnot_true : ¬((polls.foldl markPoll (initGKfound desired)).lookup g
          = some true) := by
        intro hc
        rw [markPolls_lookup_true_iff] at hc
        rcases hc with hc | ⟨_, p, hp, hmem⟩
        · rw [hinit] at hc
          cases hc
        · exact hserved p hp hmem
      have hsome : ((polls.foldl markPoll (initGKfound desired)).lookup g).isSome := by
        rw [lookup_isSome_congr (markPolls_map_fst polls (initGKfound desired)) g]
        exact (lookup_isSome_iff_mem_keys _ g).mpr hkey
      have hfalse_lookup : (polls.foldl markPoll (initGKfound desired)).lookup g
          = some false := by
        rcases hl : (polls.foldl markPoll (initGKfound desired)).lookup g with _ | b
        · rw [hl] at hsome
          cases hsome
        · cases b
          · rfl
          · exact absurd hl hnot_true
      have hmem := lookup_mem _ g false hfalse_lookup
      show g.toStr.toList <:+:
        (((waitLoop polls 0 (initGKfound desired) []).2.2.getLast?).getD "").toList
      rw [hlog]
      simp only [Option.getD_some]
      exact missing_named_in_log _ g hmem

/-- Witness for C4: with one failing poll followed by one poll that
serves the desired key, the gate succeeds. -/
theorem waitForDesiredResources_spec_witness :
    ∃ k, (waitForDesiredResources
        [.fail, .ok [{ groupVersion := "example.io/v1", kinds := ["Alpha"] }]]
        [(keyA, false)]).1 = .success k := by
  have h := waitForDesiredResources_spec
    [.fail, .ok [{ groupVersion := "example.io/v1", kinds := ["Alpha"] }]]
    [(keyA, false)] (by decide) (by decide)
  exact h.2.2.1 (by decide)

set_option maxRecDepth 4000 in
/-- Counterexample to C4 as stated: when the budget elapses the returned
timeout error does not name the missing key — only the accompanying log
line does. -/
theorem waitForDesiredResources_cex :
    (waitForDesiredResources [.fail, .ok []] [(keyA, false)]).1
      = .timeout timeoutErrMsg
    ∧ ¬(keyA.toStr.toList <:+: timeoutErrMsg.toList)
    ∧ keyA.toStr.toList <:+:
        (((waitForDesiredResources [.fail, .ok []]
          [(keyA, false)]).2.2.getLast?).getD "").toList :=
  ⟨rfl, by decide, by decide⟩

/-- **C5 (amended).** During each poll cycle the discovery gate marks
entries of its own fresh working copy of the DesiredSet's keys
(`GKfound`, seeded all-false): a served (group, kind) pair that is a key
is flipped to true, a pair that is not a key changes nothing, the
copy's key set never gains or loses keys, and its flags only ever
change from false to true.  The DesiredSet itself is returned by the
gate unchanged — it is mutated only by the SchemaFilter's path loop,
which likewise never gains or loses keys and only flips existing keys'
flags from false to true. -/
theorem desiredSet_mutation_spec :
    (∀ (polls : List DiscoveryPoll) (desired : List (GroupKind × Bool)),
      gateDesiredAfter polls desired = desired)
    ∧ (∀ (polls : List DiscoveryPoll) (desired : List (GroupKind × Bool)),
      (waitForDesiredResources polls desired).2.1.map Prod.fst
        = desired.map Prod.fst)
    ∧ (∀ (st : List (GroupKind × Bool)) (p : DiscoveryPoll) (g : GroupKind),
      st.lookup g = some true → (markPoll st p).lookup g = some true)
    ∧ (∀ (g : String) (st : List (GroupKind × Bool)) (k : String),
      ¬((st.lookup { group := g, kind := k }).isSome = true) →
        markKind g st k = st)
    ∧ (∀ (ps : List (String × PathItem)) (acc : List String)
        (m : List (GroupKind × Bool)),
      ((ps.foldl getDesiredPathsStep (acc, m)).2).map Prod.fst = m.map Prod.fst)
    ∧ (∀ (ps : List (String × PathItem)) (acc : List String)
        (m : List (GroupKind × Bool)) (g : GroupKind),
      m.lookup g = some true →
        ((ps.foldl getDesiredPathsStep (acc, m)).2).lookup g = some true) := by
  refine ⟨fun _ _ => rfl, ?_, ?_, ?_, ?_, ?_⟩
  · intro polls desired
    unfold waitForDesiredResources
    rw [waitLoop_state_map_fst, initGKfound_map_fst]
  · intro st p g h
    rw [markPoll_lookup_true_iff]
    exact Or.inl h
  · intro g st k h
    unfold markKind
    rw [if_neg]
    intro hc
    exact h (by rw [hc]; rfl)
  · intro ps acc m
    exact foldl_getDesiredPathsStep_map_fst ps acc m
  · intro ps acc m g h
    exact foldl_getDesiredPathsStep_true_persist ps acc m g h

/-- Witness for C5: the persistence and no-op conjuncts applied at
concrete states. -/
theorem desiredSet_mutation_spec_witness :
    gateDesiredAfter [DiscoveryPoll.ok []] [(keyA, false)] = [(keyA, false)]
    ∧ (markPoll [(keyA, true)] (.ok [])).lookup keyA = some true
    ∧ markKind "other.io" [(keyA, false)] "Thing" = [(keyA, false)] :=
  ⟨desiredSet_mutation_spec.1 _ _,
   desiredSet_mutation_spec.2.2.1 _ (.ok []) keyA (by decide),
   desiredSet_mutation_spec.2.2.2.1 "other.io" _ "Thing" (by decide)⟩

/-- Counterexample to C5 as stated: a cycle that serves the desired key
makes the gate succeed and flips the flag in the gate's internal copy,
yet the DesiredSet entry itself still carries found=false after the gate
— the gate never writes to the DesiredSet. -/
theorem desiredSet_mutation_cex :
    (waitForDesiredResources
        [.ok [{ groupVersion := "example.io/v1", kinds := ["Alpha"] }]]
        [(keyA, false)]).1 = .success 1
    ∧ (waitForDesiredResources
        [.ok [{ groupVersion := "example.io/v1", kinds := ["Alpha"] }]]
        [(keyA, false)]).2.1 = [(keyA, true)]
    ∧ gateDesiredAfter
        [.ok [{ groupVersion := "example.io/v1", kinds := ["Alpha"] }]]
        [(keyA, false)] = [(keyA, false)] :=
  ⟨rfl, rfl, rfl⟩

/-! ## KubeconfigExtractor (`getKubeConfigFromContainer`,
src/pkg/cmd/rancher.go lines 231-266; the same poll-then-untar logic
appears as `getKubeCfgFromContainer`, src/pkg/cmd/cluster.go lines
138-173)

The Go function polls `CopyFromContainer` under
`wait.PollUntilContextTimeout`: success ends the poll; an
`errdefs.IsNotFound` error returns `(false, nil)` and is retried; any
other error returns `(false, err)`, which aborts the poll immediately.
Both the abort and budget expiry are then wrapped into the same
`failed to get kubeconfig from container after %v` error.  On success
`tar.NewReader(reader).Next()` is called once: `io.EOF` (no first entry)
is the fatal `k3s kubeConfig is empty` error; any first entry has its
bytes read with `io.ReadAll` and returned — a present but zero-length
entry yields empty bytes and no error. -/

/-- One tick of the `CopyFromContainer` poll. -/
inductive CopyResult where
  | notFound
  | otherErr
  | ok (archive : List String)
deriving DecidableEq, Repr

/-- The extractor's error values, by source message. -/
inductive KubeCfgErr where
  | pollFailed
  | emptyArchive
deriving DecidableEq, Repr

/-- The message of `KubeCfgErr.pollFailed`:
`fmt.Errorf("failed to get kubeconfig from container after %v", waitTime)`. -/
def pollFailedMsg : String := "failed to get kubeconfig from container after 10m0s"

/-- The message of `KubeCfgErr.emptyArchive`. -/
def emptyArchiveMsg : String := "k3s kubeConfig is empty"

/-- The poll loop (`configFunc` under `PollUntilContextTimeout`),
returning the successful archive or the wrapped poll error, together
with the number of poll ticks consumed. -/
def copyPoll : List CopyResult → Nat → Except KubeCfgErr (List String) × Nat
  | [], n => (.error .pollFailed, n)
  | .notFound :: rest, n => copyPoll rest (n + 1)
  | .otherErr :: _, n => (.error .pollFailed, n + 1)
  | .ok archive :: _, n => (.ok archive, n + 1)

/-- Embeds `getKubeConfigFromContainer`: the poll, then the single
`tarReader.Next()` and `io.ReadAll` of the first entry. -/
def getKubeConfigFromContainer (polls : List CopyResult) :
    Except KubeCfgErr String × Nat :=
  match copyPoll polls 0 with
  | (.error e, n) => (.error e, n)
  | (.ok archive, n) =>
    match archive with
    | [] => (.error .emptyArchive, n)
    | entry :: _ => (.ok entry, n)

/-! ## ContainerLifecycle construction and the orchestrator's run
(`newRancherDockerContainer` src/pkg/cmd/rancher.go lines 53-94,
`createRancherContainer` lines 136-183, `start` lines 96-118, `run`
lines 341-430) -/

/-- `defaultHostPort` in src/pkg/cmd/rancher.go. -/
def defaultHostPort : String := "80"

/-- `defaultHostPortHTTPS` in src/pkg/cmd/rancher.go. -/
def defaultHostPortHTTPS : String := "443"

/-- `defaultK3sPort` in src/pkg/cmd/rancher.go: the fixed host port the
Kubernetes API (6443/tcp) is bound to by `createRancherContainer` —
it is not configurable and not checked against the HTTP/HTTPS host
ports. -/
def defaultK3sPort : String := "6443"

/-- `rancherDefaultImage` and `defaultRancherVersion`. -/
def rancherDefaultImage : String := "rancher/rancher"

def defaultRancherVersion : String := "latest"

/-- Embeds `newRancherDockerContainer` (src/pkg/cmd/rancher.go lines
53-94) without the Docker-client construction: image selection, host
port defaulting, and the single port validation
`if hostPort == hostPortHTTPS` — returning the configured (image,
hostPort, hostPortHTTPS). -/
def newRancherDockerContainer (image version hostPort hostPortHTTPS : String) :
    Except String (String × String × String) :=
  let image' := if image ≠ "" then image
    else rancherDefaultImage ++ ":"
      ++ (if version = "" then defaultRancherVersion else version)
  let hp := if hostPort = "" then defaultHostPort else hostPort
  let hps := if hostPortHTTPS = "" then defaultHostPortHTTPS else hostPortHTTPS
  if hp = hps then .error "host port and host port https cannot be the same"
  else .ok (image', hp, hps)

/-- The outcomes of the fallible calls `run` makes, in program order.
Each failing entry carries the error message the callee returned. -/
structure RunEnv where
  flagsConflict : Bool
  parse : Except String Unit
  pull : Except String Unit
  create : Except String Unit
  startC : Except String Unit
  waitReady : Except String Unit
  kubeconfig : Except String Unit
  newClient : Except String Unit
  waitResources : Except String Unit
  getSwagger : Except String Unit
  desiredPaths : Except String Unit
  writeDoc : Except String Unit
  stop : Except String Unit

/-- The deferred cleanup of `run`:
`stopErr := rancherContainer.stop(); if err == nil { err = stopErr }`,
executed exactly once on the paths where the defer is registered.  The
result triple is (surfaced error, stop invocations, create
invocations). -/
def runFin (stop : Except String Unit) (e : Option String) :
    Option String × Nat × Nat :=
  match e with
  | some err => (some err, 1, 1)
  | none =>
    match stop with
    | .error se => (some se, 1, 1)
    | .ok _ => (none, 1, 1)

/-- Embeds `run` (src/pkg/cmd/rancher.go lines 341-430): the flag
conflict check, `parseGroupKind`, `newRancherDockerContainer`,
`start()` (pull, create, start, waitReady — the deferred `stop` is
registered only after `start()` returns nil), then kubeconfig, client,
discovery gate, swagger, path filter and output, with the defer's
first-error-wins merge.  Returns (surfaced error, number of `stop`
invocations, number of `ContainerCreate` invocations). -/
def run (env : RunEnv) (image version httpPort httpsPort : String) :
    Option String × Nat × Nat :=
  if env.flagsConflict then
    (some "cannot specify both --rancher-dev-image and --rancher-version flags at the same time", 0, 0)
  else match env.parse with
  | .error e => (some ("failed to split group kind: " ++ e), 0, 0)
  | .ok _ =>
  match newRancherDockerContainer image version httpPort httpsPort with
  | .error e => (some ("failed to create rancher docker container: " ++ e), 0, 0)
  | .ok _ =>
  match env.pull with
  | .error e => (some ("failed to start rancher container: " ++ e), 0, 0)
  | .ok _ =>
  match env.create with
  | .error e => (some ("failed to start rancher container: " ++ e), 0, 1)
  | .ok _ =>
  match env.startC with
  | .error e => (some ("failed to start rancher container: " ++ e), 0, 1)
  | .ok _ =>
  match env.waitReady with
  | .error e => (some ("failed to start rancher container: " ++ e), 0, 1)
  | .ok _ =>
  match env.kubeconfig with
  | .error e => runFin env.stop (some ("failed to get kubeconfig from container: " ++ e))
  | .ok _ =>
  match env.newClient with
  | .error e => runFin env.stop (some ("failed to create kube client: " ++ e))
  | .ok _ =>
  match env.waitResources with
  | .error e => runFin env.stop (some ("failed to wait for desired resources: " ++ e))
  | .ok _ =>
  match env.getSwagger with
  | .error e => runFin env.stop (some e)
  | .ok _ =>
  match env.desiredPaths with
  | .error e => runFin env.stop (some e)
  | .ok _ =>
  match env.writeDoc with
  | .error e => runFin env.stop (some ("failed to write swagger: " ++ e))
  | .ok _ => runFin env.stop none

theorem copyPoll_pre (pre : List CopyResult)
    (hpre : ∀ p ∈ pre, p = CopyResult.notFound) :
    ∀ (tail : List CopyResult) (n : Nat),
      copyPoll (pre ++ tail) n = copyPoll tail (n + pre.length) := by
  induction pre with
  | nil => intro tail n; simp [copyPoll]
  | cons p rest ih =>
    intro tail n
    have hp : p = CopyResult.notFound := hpre p (List.mem_cons_self _ _)
    subst hp
    show copyPoll (CopyResult.notFound :: (rest ++ tail)) n = _
    rw [show copyPoll (CopyResult.notFound :: (rest ++ tail)) n
        = copyPoll (rest ++ tail) (n + 1) from rfl]
    rw [ih (fun q hq => hpre q (List.mem_cons_of_mem _ hq)) tail (n + 1)]
    congr 1
    simp
    omega

/-- **C7 (amended).** A "not found" copy result is treated as
not-yet-ready and retried; any other copy error aborts the poll
immediately (no later tick is consumed), though it is wrapped into the
same `failed to get kubeconfig from container after %v` error as a
budget expiry; when the copy succeeds, an archive with NO first entry
fails immediately with the fatal `k3s kubeConfig is empty` error and no
further poll is made — while an archive whose first entry is present but
zero-length is returned as empty bytes with no error. -/
theorem getKubeConfigFromContainer_spec (pre rest : List CopyResult)
    (hpre : ∀ p ∈ pre, p = CopyResult.notFound) :
    (∀ n, copyPoll (CopyResult.notFound :: rest) n = copyPoll rest (n + 1))
    ∧ getKubeConfigFromContainer pre = (.error .pollFailed, pre.length)
    ∧ getKubeConfigFromContainer (pre ++ CopyResult.otherErr :: rest)
        = (.error .pollFailed, pre.length + 1)
    ∧ getKubeConfigFromContainer (pre ++ CopyResult.ok [] :: rest)
        = (.error .emptyArchive, pre.length + 1)
    ∧ (∀ (entry : String) (more : List String),
        getKubeConfigFromContainer (pre ++ CopyResult.ok (entry :: more) :: rest)
          = (.ok entry, pre.length + 1)) := by
  have hpoll := copyPoll_pre pre hpre
  refine ⟨fun n => rfl, ?_, ?_, ?_, ?_⟩
  · unfold getKubeConfigFromContainer
    have : copyPoll pre 0 = (.error .pollFailed, pre.length) := by
      have := hpoll [] 0
      rw [List.append_nil] at this
      rw [this]
      simp [copyPoll]
    rw [this]
  · unfold getKubeConfigFromContainer
    rw [hpoll _ 0]
    simp [copyPoll]
  · unfold getKubeConfigFromContainer
    rw [hpoll _ 0]
    simp [copyPoll]
  · intro entry more
    unfold getKubeConfigFromContainer
    rw [hpoll _ 0]
    simp [copyPoll]

/-- Witness for C7: one not-yet-ready tick then expiry; and one
not-yet-ready tick then an entry-less archive. -/
theorem getKubeConfigFromContainer_spec_witness :
    getKubeConfigFromContainer [CopyResult.notFound]
      = (.error .pollFailed, 1)
    ∧ getKubeConfigFromContainer [CopyResult.notFound, CopyResult.ok []]
      = (.error .emptyArchive, 2) := by
  have h := getKubeConfigFromContainer_spec [CopyResult.notFound] [] (by decide)
  exact ⟨h.2.1, h.2.2.2.1⟩

/-- Counterexample to C7 as stated: an archive whose first entry is
present but zero-length is NOT the fatal "credential bundle is empty"
error — the extractor returns the empty bytes successfully. -/
theorem getKubeConfigFromContainer_cex :
    getKubeConfigFromContainer [CopyResult.ok [""]] = (.ok "", 1) := rfl

/-- **C8 (amended).** Once `start()` has succeeded, the deferred cleanup
is registered and on every later exit path — success or any stage
failure — `stop` runs exactly once, the first error encountered is the
one surfaced, and `stop`'s own error is surfaced only when no earlier
error exists.  (Exits before or during `start()` never invoke `stop`,
even when the container was already created.) -/
theorem run_cleanup_spec (env : RunEnv) (image version httpPort httpsPort : String)
    (hnc : env.flagsConflict = false) (hparse : env.parse = .ok ())
    (hports : ∃ cfg, newRancherDockerContainer image version httpPort httpsPort
      = .ok cfg)
    (hpull : env.pull = .ok ()) (hcreate : env.create = .ok ())
    (hstart : env.startC = .ok ()) (hwait : env.waitReady = .ok ()) :
    ((run env image version httpPort httpsPort).2.1 = 1)
    ∧ (∀ e, env.kubeconfig = .error e →
        (run env image version httpPort httpsPort).1
          = some ("failed to get kubeconfig from container: " ++ e))
    ∧ (env.kubeconfig = .ok () → env.newClient = .ok () →
       env.waitResources = .ok () → env.getSwagger = .ok () →
       env.desiredPaths = .ok () → env.writeDoc = .ok () →
        (run env image version httpPort httpsPort).1
          = match env.stop with
            | .error se => some se
            | .ok _ => none) := by
  obtain ⟨cfg, hcfg⟩ := hports
  unfold run
  rw [hnc, hcfg, hparse, hpull, hcreate, hstart, hwait]
  simp only [if_false, Bool.false_eq_true]
  refine ⟨?_, ?_, ?_⟩
  · rcases env.kubeconfig with e | u
    · simp [runFin]
    · rcases env.newClient with e | u
      · rcases env.stop with se | su <;> rfl
      · rcases env.waitResources with e | u
        · rcases env.stop with se | su <;> rfl
        · rcases env.getSwagger with e | u
          · rcases env.stop with se | su <;> rfl
          · rcases env.desiredPaths with e | u
            · rcases env.stop with se | su <;> rfl
            · rcases env.writeDoc with e | u
              · rcases env.stop with se | su <;> rfl
              · rcases env.stop with se | su <;> rfl
  · intro e he
    rw [he]
    rfl
  · intro h1 h2 h3 h4 h5 h6
    rw [h1, h2, h3, h4, h5, h6]
    rcases env.stop with se | su <;> rfl

/-- The run environment where every call succeeds. -/
def envOK : RunEnv :=
  { flagsConflict := false, parse := .ok (), pull := .ok (), create := .ok (),
    startC := .ok (), waitReady := .ok (), kubeconfig := .ok (),
    newClient := .ok (), waitResources := .ok (), getSwagger := .ok (),
    desiredPaths := .ok (), writeDoc := .ok (), stop := .ok () }

/-- Witness for C8: on the all-success run, stop fires once and no error
is surfaced. -/
theorem run_cleanup_spec_witness :
    (run envOK "" "" "" "").2.1 = 1 ∧ (run envOK "" "" "" "").1 = none := by
  have h := run_cleanup_spec envOK "" "" "" "" rfl rfl ⟨_, rfl⟩ rfl rfl rfl rfl
  exact ⟨h.1, h.2.2 rfl rfl rfl rfl rfl rfl⟩

/-- The run environment whose container start call fails, after the
container has been created. -/
def envStartFail : RunEnv :=
  { envOK with startC := .error "boom" }

/-- Counterexample to C8 as stated: when `start()` fails (here at the
`ContainerStart` call, with the container already created), the run
exits without ever invoking `stop` — the deferred cleanup is registered
only after `start()` succeeds, so stop does NOT run exactly once on
every exit path. -/
theorem run_cleanup_cex :
    run envStartFail "" "" "" ""
      = (some "failed to start rancher container: boom", 0, 1) := rfl

/-- **C10 (amended).** Construction validates only the HTTP host port
against the HTTPS host port: when, after defaulting, the two are equal,
`newRancherDockerContainer` fails with the runtime error and `run`
returns before any create call is issued.  The fixed API host port
(`defaultK3sPort = "6443"`) takes part in the port bindings but is not
validated against the other two. -/
theorem newRancherDockerContainer_spec (env : RunEnv)
    (image version hp hps : String)
    (hnc : env.flagsConflict = false) (hparse : env.parse = .ok ())
    (heq : (if hp = "" then defaultHostPort else hp)
      = (if hps = "" then defaultHostPortHTTPS else hps)) :
    newRancherDockerContainer image version hp hps
      = .error "host port and host port https cannot be the same"
    ∧ (run env image version hp hps).2.2 = 0
    ∧ (run env image version hp hps).1
        = some ("failed to create rancher docker container: "
          ++ "host port and host port https cannot be the same") := by
  have hcon : newRancherDockerContainer image version hp hps
      = .error "host port and host port https cannot be the same" := by
    unfold newRancherDockerContainer
    simp only [heq, if_pos]
  refine ⟨hcon, ?_, ?_⟩
  · unfold run
    rw [hnc, hparse, hcon]
    rfl
  · unfold run
    rw [hnc, hparse, hcon]
    rfl

/-- Witness for C10: equal HTTP and HTTPS host ports are rejected and no
create call happens. -/
theorem newRancherDockerContainer_spec_witness :
    newRancherDockerContainer "" "" "8080" "8080"
      = .error "host port and host port https cannot be the same"
    ∧ (run envOK "" "" "8080" "8080").2.2 = 0 := by
  have h := newRancherDockerContainer_spec envOK "" "" "8080" "8080" rfl rfl
    (by decide)
  exact ⟨h.1, h.2.1⟩

/-- Counterexample to C10 as stated: mapping the HTTP logical port to
host port 6443 collides with the fixed API host port
(`defaultK3sPort`), yet construction succeeds — only the HTTP/HTTPS
pair is checked. -/
theorem newRancherDockerContainer_cex :
    defaultK3sPort = "6443"
    ∧ newRancherDockerContainer "" "" "6443" "443"
        = .ok ("rancher/rancher:latest", "6443", "443") :=
  ⟨rfl, rfl⟩

/-! ## Client construction (`newKubeClient`, src/unnamed/part_005 lines
208-233; `createRESTConfig`, src/pkg/cmd/cluster.go lines 175-191)

Both functions take the server URL embedded in the extracted kubeconfig
(`restCfg.Host`), parse it with `url.Parse`, split the authority with
`net.SplitHostPort` (failing when there is no port to split), join the
host back with the externally bound API port via `net.JoinHostPort`,
and store the re-serialised URL: only the port changes.
`newKubeClient` uses the fixed `defaultK3sPort`; `createRESTConfig`
uses the `--cluster-port` flag; the embedding takes the port as a
parameter.  `url.Parse` is embedded for the URL shapes at hand: its
up-front rejection of ASCII control bytes, then `scheme://authority/path`
splitting (an input with no `://` has an empty `Host`, as Go gives
opaque or relative URLs).  `net.SplitHostPort` is embedded with Go's
last-colon rule, bracket handling, and its `missing port` /
`too many colons` errors (the trailing stray-bracket checks of the Go
function are omitted; no claim concerns them). -/

/-- The pieces of Go's `url.URL` the rewrite touches. -/
structure GoURL where
  scheme : String
  host : String
  path : String

/-- `url.Parse`'s up-front rejection: any ASCII control byte. -/
def containsCtlByte (s : String) : Bool :=
  s.toList.any (fun c => c.toNat < 0x20 ∨ c.toNat = 0x7f)

/-- Split a character list at the first `"://"`. -/
def splitScheme : List Char → Option (List Char × List Char)
  | [] => none
  | c :: rest =>
    if c = ':' ∧ rest.take 2 = ['/', '/'] then some ([], rest.drop 2)
    else
      match splitScheme rest with
      | none => none
      | some (s, r) => some (c :: s, r)

/-- Embeds `url.Parse` for the shapes at hand. -/
def urlParse (s : String) : Except String GoURL :=
  if containsCtlByte s then .error "net/url: invalid control character in URL"
  else
    match splitScheme s.toList with
    | none => .ok { scheme := "", host := "", path := s }
    | some (sch, rest) =>
      .ok { scheme := String.mk sch,
            host := String.mk (rest.takeWhile (fun c => c ≠ '/')),
            path := String.mk (rest.dropWhile (fun c => c ≠ '/')) }

/-- `url.URL.String()` for the shapes at hand. -/
def urlString (u : GoURL) : String :=
  if u.scheme = "" then u.path else u.scheme ++ "://" ++ u.host ++ u.path

/-- The index of the last occurrence of `c`. -/
def lastIdxOf (c : Char) : List Char → Option Nat
  | [] => none
  | x :: xs =>
    match lastIdxOf c xs with
    | some i => some (i + 1)
    | none => if x = c then some 0 else none

/-- Embeds `net.SplitHostPort`: the port starts after the last colon;
no colon is the `missing port in address` error; a non-bracketed host
containing a further colon is `too many colons in address`; a
`[host]:port` shape strips the brackets. -/
def splitHostPort (s : String) : Except String (String × String) :=
  match lastIdxOf ':' s.toList with
  | none => .error "missing port in address"
  | some i =>
    if s.toList.head? = some '[' then
      if s.toList.indexOf ']' ≥ s.toList.length then
        .error "missing ']' in address"
      else if s.toList.indexOf ']' + 1 = s.toList.length then
        .error "missing port in address"
      else if s.toList.indexOf ']' + 1 = i then
        .ok (String.mk ((s.toList.drop 1).take (s.toList.indexOf ']' - 1)),
             String.mk (s.toList.drop (i + 1)))
      else if s.toList.get? (s.toList.indexOf ']' + 1) = some ':' then
        .error "too many colons in address"
      else .error "missing port in address"
    else
      if ':' ∈ s.toList.take i then .error "too many colons in address"
      else .ok (String.mk (s.toList.take i), String.mk (s.toList.drop (i + 1)))

/-- Embeds `net.JoinHostPort`. -/
def joinHostPort (host port : String) : String :=
  if (':' ∈ host.toList) ∨ ('%' ∈ host.toList) then
    "[" ++ host ++ "]:" ++ port
  else host ++ ":" ++ port

/-- Embeds the host-rewrite of `newKubeClient` / `createRESTConfig`:
parse the URL, split host and port, join the host with the API port,
re-serialise.  The error wrappings are the source's
`failed to parse cluster URL` and `failed to parse cluster host`. -/
def rewriteAPIPort (restHost apiPort : String) : Except String String :=
  match urlParse restHost with
  | .error e => .error ("failed to parse cluster URL: " ++ e)
  | .ok u =>
    match splitHostPort u.host with
    | .error e => .error ("failed to parse cluster host: " ++ e)
    | .ok (h, _) => .ok (urlString { u with host := joinHostPort h apiPort })

/-! Facts for claim C9. -/

theorem string_append_assoc (a b c : String) : a ++ b ++ c = a ++ (b ++ c) := by
  apply String.ext
  simp only [String.data_append, List.append_assoc]

theorem splitScheme_append (sch : List Char) (hs : ':' ∉ sch) (rest : List Char) :
    splitScheme (sch ++ ':' :: '/' :: '/' :: rest) = some (sch, rest) := by
  induction sch with
  | nil =>
    simp [splitScheme]
  | cons c cr ih =>
    simp only [List.mem_cons, not_or] at hs
    simp only [List.cons_append, splitScheme]
    rw [if_neg (by
      rintro ⟨hc, _⟩
      exact hs.1 hc.symm)]
    rw [show cr.append (':' :: '/' :: '/' :: rest)
      = cr ++ ':' :: '/' :: '/' :: rest from rfl, ih hs.2]

theorem takeWhile_append_sat {p : Char → Bool} (l₁ l₂ : List Char)
    (h₁ : ∀ x ∈ l₁, p x = true) (h₂ : l₂ = [] ∨ ∃ c cr, l₂ = c :: cr ∧ p c = false) :
    (l₁ ++ l₂).takeWhile p = l₁ ∧ (l₁ ++ l₂).dropWhile p = l₂ := by
  induction l₁ with
  | nil =>
    rcases h₂ with rfl | ⟨c, cr, rfl, hc⟩
    · simp
    · simp [List.takeWhile, List.dropWhile, hc]
  | cons x xs ih =>
    have hx : p x = true := h₁ x (List.mem_cons_self _ _)
    obtain ⟨ht, hd⟩ := ih (fun y hy => h₁ y (List.mem_cons_of_mem _ hy))
    simp only [List.cons_append, List.takeWhile, List.dropWhile, hx]
    rw [show xs.append l₂ = xs ++ l₂ from rfl]
    exact ⟨by rw [ht], by rw [hd]⟩

theorem lastIdxOf_append (l₁ l₂ : List Char) (c : Char) (h : c ∉ l₂) :
    lastIdxOf c (l₁ ++ c :: l₂) = some l₁.length := by
  induction l₁ with
  | nil =>
    have hnone : lastIdxOf c l₂ = none := by
      induction l₂ with
      | nil => rfl
      | cons y ys ih =>
        simp only [List.mem_cons, not_or] at h
        simp only [lastIdxOf, ih h.2]
        rw [if_neg (fun hc => h.1 hc.symm)]
    simp [lastIdxOf, hnone]
  | cons x xs ih =>
    show lastIdxOf c (x :: (xs ++ c :: l₂)) = some (xs.length + 1)
    simp only [lastIdxOf]
    rw [ih]

theorem lastIdxOf_not_mem (c : Char) (l : List Char) (h : c ∉ l) :
    lastIdxOf c l = none := by
  induction l with
  | nil => rfl
  | cons y ys ih =>
    simp only [List.mem_cons, not_or] at h
    simp only [lastIdxOf, ih h.2]
    rw [if_neg (fun hc => h.1 hc.symm)]

theorem splitHostPort_ok (hst port : String)
    (hhc : ':' ∉ hst.toList) (hhb : hst.toList.head? ≠ some '[')
    (hpc : ':' ∉ port.toList) :
    splitHostPort (String.mk (hst.toList ++ ':' :: port.toList))
      = .ok (hst, port) := by
  unfold splitHostPort
  have hlast : lastIdxOf ':' (hst.toList ++ ':' :: port.toList)
      = some hst.toList.length := lastIdxOf_append _ _ _ hpc
  rw [show (String.mk (hst.toList ++ ':' :: port.toList)).toList
    = hst.toList ++ ':' :: port.toList from rfl]
  rw [hlast]
  simp only
  rw [if_neg (by
    rcases hh : hst.toList with _ | ⟨c, cr⟩
    · simp
    · rw [hh] at hhb
      simpa using hhb)]
  rw [if_neg (by
    rw [List.take_left]
    exact hhc)]
  rw [List.take_left]
  have hdrop : (hst.toList ++ ':' :: port.toList).drop (hst.toList.length + 1)
      = port.toList := by
    rw [show hst.toList ++ ':' :: port.toList
      = (hst.toList ++ [':']) ++ port.toList from by simp]
    rw [show hst.toList.length + 1 = (hst.toList ++ [':']).length from by simp]
    exact List.drop_left _ _
  rw [hdrop]
  rfl

theorem splitHostPort_noPort (hst : String) (hhc : ':' ∉ hst.toList) :
    splitHostPort (String.mk hst.toList) = .error "missing port in address" := by
  unfold splitHostPort
  rw [show (String.mk hst.toList).toList = hst.toList from rfl,
    lastIdxOf_not_mem ':' hst.toList hhc]

/-- **C9 (confirmed).** After parsing the extracted kubeconfig, the
client-construction step rewrites only the port of the embedded server
URL to the externally bound API port, leaving the scheme, the host
segment and the path unchanged; it fails with the
`failed to parse cluster URL` error when the URL cannot be parsed and
with the `failed to parse cluster host: missing port in address` error
when the URL's host has no port to split. -/
theorem rewriteAPIPort_spec (hst port path apiPort : String)
    (hctl : containsCtlByte ("https://" ++ hst ++ ":" ++ port ++ path) = false)
    (hctl2 : containsCtlByte ("https://" ++ hst ++ path) = false)
    (hhc : ':' ∉ hst.toList) (hhp : '%' ∉ hst.toList)
    (hhs : '/' ∉ hst.toList) (hhb : hst.toList.head? ≠ some '[')
    (hpc : ':' ∉ port.toList) (hps : '/' ∉ port.toList)
    (hpath : path.toList = [] ∨ ∃ cr, path.toList = '/' :: cr) :
    rewriteAPIPort ("https://" ++ hst ++ ":" ++ port ++ path) apiPort
      = .ok ("https://" ++ hst ++ ":" ++ apiPort ++ path)
    ∧ (∀ s, containsCtlByte s = true → rewriteAPIPort s apiPort
        = .error
          "failed to parse cluster URL: net/url: invalid control character in URL")
    ∧ rewriteAPIPort ("https://" ++ hst ++ path) apiPort
        = .error "failed to parse cluster host: missing port in address" := by
  have htl : ∀ (y : String), ("https://" ++ y).toList
      = "https".toList ++ ':' :: '/' :: '/' :: y.toList := by
    intro y
    rw [show ("https://" : String) = "https" ++ "://" from rfl,
      string_append_assoc, toList_append]
    rfl
  have hpath' : path.toList = [] ∨
      ∃ c cr, path.toList = c :: cr ∧ (fun x => decide (x ≠ '/')) c = false := by
    rcases hpath with h | ⟨cr, h⟩
    · exact Or.inl h
    · exact Or.inr ⟨'/', cr, h, by simp⟩
  refine ⟨?_, ?_, ?_⟩
  · unfold rewriteAPIPort urlParse
    rw [hctl]
    simp only [Bool.false_eq_true, if_false]
    have hlist : ("https://" ++ hst ++ ":" ++ port ++ path).toList
        = "https".toList ++ ':' :: '/' :: '/'
          :: ((hst.toList ++ ':' :: port.toList) ++ path.toList) := by
      rw [string_append_assoc, string_append_assoc, string_append_assoc, htl]
      simp only [toList_append]
      rw [show (":" : String).toList = [':'] from rfl]
      simp
    rw [hlist, splitScheme_append _ (by decide) _]
    have hsat : ∀ x ∈ hst.toList ++ ':' :: port.toList,
        (fun c => decide (c ≠ '/')) x = true := by
      intro x hx
      rcases List.mem_append.mp hx with hx | hx
      · simp only [decide_eq_true_eq]
        intro hc
        exact hhs (hc ▸ hx)
      · rcases List.mem_cons.mp hx with rfl | hx
        · simp
        · simp only [decide_eq_true_eq]
          intro hc
          exact hps (hc ▸ hx)
    have hsplit := takeWhile_append_sat (hst.toList ++ ':' :: port.toList)
      path.toList hsat hpath'
    simp only
    rw [hsplit.1, hsplit.2, splitHostPort_ok hst port hhc hhb hpc]
    simp only
    unfold urlString joinHostPort
    rw [if_neg (show ¬(String.mk "https".toList = "") from fun hc => by
      have hd := congrArg String.data hc
      exact absurd hd (by decide))]
    rw [if_neg (show ¬((':' ∈ hst.toList) ∨ ('%' ∈ hst.toList)) from by
      rintro (hc | hc)
      · exact hhc hc
      · exact hhp hc)]
    have : String.mk path.toList = path := rfl
    rw [this]
    show Except.ok (String.mk "https".toList ++ "://" ++ (hst ++ ":" ++ apiPort) ++ path)
      = Except.ok ("https://" ++ hst ++ ":" ++ apiPort ++ path)
    congr 1
  · intro s hs
    unfold rewriteAPIPort urlParse
    rw [hs]
    rfl
  · unfold rewriteAPIPort urlParse
    rw [hctl2]
    simp only [Bool.false_eq_true, if_false]
    have hlist : ("https://" ++ hst ++ path).toList
        = "https".toList ++ ':' :: '/' :: '/' :: (hst.toList ++ path.toList) := by
      rw [string_append_assoc, htl, toList_append]
    rw [hlist, splitScheme_append _ (by decide) _]
    have hsat : ∀ x ∈ hst.toList, (fun c => decide (c ≠ '/')) x = true := by
      intro x hx
      simp only [decide_eq_true_eq]
      intro hc
      exact hhs (hc ▸ hx)
    have hsplit := takeWhile_append_sat hst.toList path.toList hsat hpath'
    simp only
    rw [hsplit.1, splitHostPort_noPort hst hhc]
    rfl

/-- Witness for C9: the k3s kubeconfig host `https://127.0.0.1:444`
is rewritten to port 6443 with the host `127.0.0.1` untouched, and a
port-less host fails. -/
theorem rewriteAPIPort_spec_witness :
    rewriteAPIPort "https://127.0.0.1:444" "6443" = .ok "https://127.0.0.1:6443"
    ∧ rewriteAPIPort "https://127.0.0.1" "6443"
        = .error "failed to parse cluster host: missing port in address" := by
  have h := rewriteAPIPort_spec "127.0.0.1" "444" "" "6443" (by decide) (by decide)
    (by decide) (by decide) (by decide) (by decide) (by decide) (by decide)
    (Or.inl rfl)
  refine ⟨?_, ?_⟩
  · have h1 := h.1
    rw [show ("https://" ++ "127.0.0.1" ++ ":" ++ "444" ++ ""
      : String) = "https://127.0.0.1:444" from rfl] at h1
    rw [show ("https://" ++ "127.0.0.1" ++ ":" ++ "6443" ++ ""
      : String) = "https://127.0.0.1:6443" from rfl] at h1
    exact h1
  · have h3 := h.2.2
    rw [show ("https://" ++ "127.0.0.1" ++ "" : String)
      = "https://127.0.0.1" from rfl] at h3
    exact h3

/-! ## C2: the vendored aggregator's reference-closure walk
(src/unnamed/part_006; `pkg/aggregator`, copied from
`k8s.io/kube-openapi/pkg/aggregator` with the parameter patch)

The repository excerpt gives the patched body of the ref callback of
`walkOnAllReferences` (src/unnamed/part_006 lines 17-41): an empty ref
returns; a ref starting with `parameterPrefix` resolves the shared
parameter and walks its `Ref`, its `Schema` and its `Items.Ref` with no
visited guard; a ref starting with `definitionPrefix` — under the
`found && !alreadyVisited[refStr]` guard — marks `alreadyVisited[refStr]`
and walks the definition's schema.  The surrounding traversal and
`FilterSpecByPaths` are the upstream aggregator code the package copies;
they are modelled from the spec: the walk starts from every surviving
operation's parameters and response/body schemas, resolves schema
references recursively through nested properties/items/allOf
composition, records each reached definition name, and drops every
definition name never reached.  The Go recursion is unbounded, so the
embedding takes a fuel bound on the ref-resolution depth: `none` means
the fuel ran out, and termination of the Go walk on a document is the
existence of a fuel on which the walk returns `some`. -/

/-- The aggregator's `definitionPrefix` constant. -/
def definitionPrefix : String := "#/definitions/"

/-- The patched aggregator's `parameterPrefix` constant
(src/unnamed/part_006). -/
def parameterPrefix : String := "#/parameters/"

mutual

/-- The `$ref` strings contained in a schema, in the recursive-descent
order of the walker's `walkSchema`: the node's own ref, then the refs of
its properties, items and allOf children.  Modelled from the spec: schema
references are resolved recursively through nested properties/items/allOf
composition.  `walkSchema` touches the walker state only through one
ref-callback call per contained ref, so its effect on the walk is the
callback folded over this list. -/
def Schema.refs : Schema → List String
  | .mk r props its alls => r :: (refsOfProps props ++ (refsOfOpt its ++ refsOfList alls))

/-- `Schema.refs` over a property list. -/
def refsOfProps : List (String × Schema) → List String
  | [] => []
  | p :: rest => p.2.refs ++ refsOfProps rest

/-- `Schema.refs` over an optional child schema (`[]` for a nil schema
pointer, which `walkSchema` returns from at once). -/
def refsOfOpt : Option Schema → List String
  | none => []
  | some s => s.refs

/-- `Schema.refs` over a schema list. -/
def refsOfList : List Schema → List String
  | [] => []
  | s :: rest => s.refs ++ refsOfList rest

end

/-- Walker state: the `alreadyVisited` set of full ref strings guarding
the definition branch, and the `usedDefinitions` set of bare definition
names that `FilterSpecByPaths`'s callback records.  Both are Go
`map[string]bool` sets, embedded as lists in insertion order. -/
abbrev WalkSt := List String × List String

/-- Set insertion for the walker's `map[string]bool` sets. -/
def strInsert (s : String) (l : List String) : List String :=
  if s ∈ l then l else l ++ [s]

/-- Go's `refStr[len(pfx):]`. -/
def refSuffix (pfx refStr : String) : String :=
  String.mk (refStr.toList.drop pfx.toList.length)

/-- The callback `FilterSpecByPaths` hands to `walkOnAllReferences`:
whenever a walked ref is non-empty and starts with `definitionPrefix`,
record the bare definition name in `usedDefinitions`.  Modelled from the
spec: every reached definition name is recorded so that unreached names
can be dropped afterwards. -/
def recordUsed (st : WalkSt) (refStr : String) : WalkSt :=
  if refStr ≠ "" ∧ goHasPrefix refStr definitionPrefix then
    (st.1, strInsert (refSuffix definitionPrefix refStr) st.2)
  else st

/-- The zero `spec.Parameter`: `root.Parameters[paramName]` yields it when
the name is absent (empty `Ref`, nil `Schema`, nil `Items`). -/
def zeroParam : Param := ⟨"", none, none⟩

/-- The ref-callback calls made for one walked parameter, in order (the
parameter branch of the patched callback, src/unnamed/part_006 lines
22-30, and likewise the walker's `walkParams`): the parameter's own
`Ref`, its `Schema`'s refs, and its `Items.Ref` when `Items` is
non-nil. -/
def paramRefs (p : Param) : List String :=
  p.ref :: (refsOfOpt p.schema ++ (match p.items with | some r => [r] | none => []))

/-- Folds a ref-callback over a list of refs, threading the walker state;
this is the walker's recursive descent through a schema or parameter
list, flattened to its sequence of callback calls.  `none` propagates a
fuel exhaustion inside some call. -/
def walkRefsAux (f : WalkSt → String → Option WalkSt) :
    WalkSt → List String → Option WalkSt
  | st, [] => some st
  | st, r :: rs => Option.bind (f st r) (fun st' => walkRefsAux f st' rs)

/-- The body of the patched callback's parameter branch
(src/unnamed/part_006 lines 22-30), given the resolved parameter:
`walker.walkRefCallback(&param.Ref)`, then `walker.walkSchema(param.Schema)`,
then `walker.walkRefCallback(&param.Items.Ref)` when `Items` is non-nil. -/
def walkParamAux (f : WalkSt → String → Option WalkSt) (st1 : WalkSt) (p : Param) :
    Option WalkSt :=
  Option.bind (f st1 p.ref) (fun st2 =>
    Option.bind (walkRefsAux f st2 (refsOfOpt p.schema)) (fun st3 =>
      match p.items with
      | some itemRef => f st3 itemRef
      | none => some st3))

/-- One invocation of the patched ref callback of `walkOnAllReferences`
(src/unnamed/part_006 lines 17-41), fuelled: record the used definition
name, return on an empty ref, then the parameter branch (resolve the
shared parameter — the zero parameter when the name is absent — and walk
its refs, with NO visited guard) and then the definition branch (when the
definition exists and `alreadyVisited[refStr]` is unset, mark `refStr`
visited and walk the definition's schema).  Every ref-resolution hop runs
at `fuel - 1`; the Go recursion is unbounded and `none` means the fuel
ran out. -/
def walkRefF (root : Swagger) : Nat → WalkSt → String → Option WalkSt
  | 0, _, _ => none
  | fuel + 1, st, refStr =>
    if refStr = "" then some (recordUsed st refStr)
    else
      Option.bind
        (if goHasPrefix refStr parameterPrefix then
          walkParamAux (walkRefF root fuel) (recordUsed st refStr)
            ((List.lookup (refSuffix parameterPrefix refStr) root.parameters).getD zeroParam)
        else some (recordUsed st refStr))
        (fun st4 =>
          if goHasPrefix refStr definitionPrefix then
            match List.lookup (refSuffix definitionPrefix refStr) root.definitions with
            | some d =>
              if refStr ∈ st4.1 then some st4
              else walkRefsAux (walkRefF root fuel) (refStr :: st4.1, st4.2) d.refs
            | none => some st4
          else some st4)

/-- The ref-callback calls of the walker's `walkResponse`: the response's
`Ref`, then its `Schema`'s refs.  Modelled from the spec: response/body
schemas of surviving operations are walked. -/
def responseRefs (resp : Response) : List String :=
  resp.ref :: refsOfOpt resp.schema

/-- `responseRefs` over an operation's responses (default and by status
code, in one list). -/
def responsesRefs : List Response → List String
  | [] => []
  | resp :: rest => responseRefs resp ++ responsesRefs rest

/-- `paramRefs` over a parameter list (the walker's `walkParams`). -/
def paramsRefs : List Param → List String
  | [] => []
  | p :: rest => paramRefs p ++ paramsRefs rest

/-- The ref-callback calls of the walker's `walkOperation`: nothing for a
nil operation, else the operation's parameters then its responses.
Modelled from the spec: every surviving operation's parameters and
response/body schemas are walked. -/
def operationRefs : Option Operation → List String
  | none => []
  | some op => paramsRefs op.parameters ++ responsesRefs op.responses

/-- The ref-callback calls of the walker's `Start` for one path item: the
path-level parameters, then the seven operations. -/
def pathItemRefs (item : PathItem) : List String :=
  paramsRefs item.parameters ++ (operationRefs item.delete ++ (operationRefs item.get ++
    (operationRefs item.head ++ (operationRefs item.options ++ (operationRefs item.patch ++
      (operationRefs item.post ++ operationRefs item.put))))))

/-- `pathItemRefs` over the path list. -/
def pathsRefs : List (String × PathItem) → List String
  | [] => []
  | p :: rest => pathItemRefs p.2 ++ pathsRefs rest

/-- The full sequence of top-level ref-callback calls of the walker's
`Start`: nothing when `Paths` is nil, else every path item's refs. -/
def startRefs (root : Swagger) : List String :=
  match root.paths with
  | none => []
  | some ps => pathsRefs ps

/-- The patched `walkOnAllReferences`, fuelled: run the ref callback over
every ref reachable from the document's paths, starting from empty
visited and used sets.  `some` returns the final (visited, used) state;
`none` means the fuel bound was hit (the Go walk recurses forever). -/
def walkOnAllReferences (root : Swagger) (fuel : Nat) : Option WalkSt :=
  walkRefsAux (walkRefF root fuel) ([], []) (startRefs root)

/-- The path-selection half of `FilterSpecByPaths`.  Modelled from the
spec: `paths` is replaced by the kept subset (the paths named in the keep
list); all other fields pass through. -/
def keepPathsOnly (root : Swagger) (keep : List String) : Swagger :=
  { root with paths := root.paths.map (fun ps => ps.filter (fun p => decide (p.1 ∈ keep))) }

/-- `FilterSpecByPaths`, fuelled through the walker.  Modelled from the
spec: after selecting paths, walk the surviving document's references;
every definition name never reached by the walk is dropped and every
reached name is kept verbatim; all other fields pass through. -/
def filterSpecByPaths (root : Swagger) (keep : List String) (fuel : Nat) :
    Option Swagger :=
  match walkOnAllReferences (keepPathsOnly root keep) fuel with
  | none => none
  | some st =>
    some { keepPathsOnly root keep with
           definitions := (keepPathsOnly root keep).definitions.filter
             (fun d => decide (d.1 ∈ st.2)) }

/-! ### Walker-state monotonicity -/

/-- Containment of walker states: the visited and used sets only grow. -/
def stSub (st st' : WalkSt) : Prop :=
  (∀ x ∈ st.1, x ∈ st'.1) ∧ (∀ x ∈ st.2, x ∈ st'.2)

theorem stSub_refl (st : WalkSt) : stSub st st :=
  ⟨fun _ hx => hx, fun _ hx => hx⟩

theorem stSub_trans {a b c : WalkSt} (h1 : stSub a b) (h2 : stSub b c) : stSub a c :=
  ⟨fun x hx => h2.1 x (h1.1 x hx), fun x hx => h2.2 x (h1.2 x hx)⟩

theorem strInsert_sub (s : String) (l : List String) : ∀ x ∈ l, x ∈ strInsert s l := by
  unfold strInsert
  split
  · exact fun x hx => hx
  · exact fun x hx => List.mem_append_left _ hx

theorem recordUsed_fst (st : WalkSt) (r : String) : (recordUsed st r).1 = st.1 := by
  unfold recordUsed
  split <;> rfl

theorem recordUsed_sub (st : WalkSt) (r : String) : stSub st (recordUsed st r) := by
  unfold recordUsed
  split
  · exact ⟨fun x hx => hx, fun x hx => strInsert_sub _ _ x hx⟩
  · exact stSub_refl st

theorem walkRefsAux_mono (f : WalkSt → String → Option WalkSt)
    (hf : ∀ st r st', f st r = some st' → stSub st st') :
    ∀ (l : List String) (st st' : WalkSt), walkRefsAux f st l = some st' → stSub st st' := by
  intro l
  induction l with
  | nil =>
    intro st st' h
    cases h
    exact stSub_refl _
  | cons r rs ih =>
    intro st st' h
    rw [walkRefsAux] at h
    cases hfr : f st r with
    | none => rw [hfr] at h; cases h
    | some st1 =>
      rw [hfr] at h
      exact stSub_trans (hf _ _ _ hfr) (ih _ _ h)

theorem walkParamAux_mono (f : WalkSt → String → Option WalkSt)
    (hf : ∀ st r st', f st r = some st' → stSub st st')
    (st : WalkSt) (p : Param) (st' : WalkSt)
    (h : walkParamAux f st p = some st') : stSub st st' := by
  unfold walkParamAux at h
  simp only [Option.bind_eq_some] at h
  obtain ⟨st2, h1, st3, h2, h3⟩ := h
  have hs2 := hf _ _ _ h1
  have hs3 := walkRefsAux_mono f hf _ _ _ h2
  cases hit : p.items with
  | some itemRef =>
    rw [hit] at h3
    exact stSub_trans hs2 (stSub_trans hs3 (hf _ _ _ h3))
  | none =>
    rw [hit] at h3
    cases h3
    exact stSub_trans hs2 hs3

theorem walkRefF_mono (root : Swagger) :
    ∀ (fuel : Nat) (st : WalkSt) (r : String) (st' : WalkSt),
      walkRefF root fuel st r = some st' → stSub st st' := by
  intro fuel
  induction fuel with
  | zero =>
    intro st r st' h
    simp only [walkRefF] at h
    cases h
  | succ fuel ih =>
    intro st r st' h
    simp only [walkRefF] at h
    by_cases hre : r = ""
    · rw [if_pos hre] at h
      cases h
      exact recordUsed_sub st r
    · rw [if_neg hre] at h
      simp only [Option.bind_eq_some] at h
      obtain ⟨st4, h1, h2⟩ := h
      have hs4 : stSub st st4 := by
        by_cases hpp : goHasPrefix r parameterPrefix = true
        · rw [if_pos hpp] at h1
          exact stSub_trans (recordUsed_sub st r) (walkParamAux_mono _ ih _ _ _ h1)
        · rw [if_neg hpp] at h1
          cases h1
          exact recordUsed_sub st r
      by_cases hdp : goHasPrefix r definitionPrefix = true
      · rw [if_pos hdp] at h2
        split at h2
        · by_cases hv : r ∈ st4.1
          · rw [if_pos hv] at h2
            cases h2
            exact hs4
          · rw [if_neg hv] at h2
            have hrec := walkRefsAux_mono (walkRefF root fuel) ih _ _ _ h2
            refine stSub_trans hs4 (stSub_trans ⟨?_, ?_⟩ hrec)
            · exact fun x hx => List.mem_cons_of_mem _ hx
            · exact fun x hx => hx
        · cases h2
          exact hs4
      · rw [if_neg hdp] at h2
        cases h2
        exact hs4

/-! ### Fuel adequacy: the visited guard bounds the walk -/

theorem countP_le_countP {α : Type} (p q : α → Bool) :
    ∀ l : List α, (∀ a ∈ l, p a = true → q a = true) → l.countP p ≤ l.countP q := by
  intro l
  induction l with
  | nil => intro _; exact Nat.le_refl _
  | cons a l ih =>
    intro h
    rw [List.countP_cons, List.countP_cons]
    have hl := ih (fun b hb hpb => h b (List.mem_cons_of_mem a hb) hpb)
    by_cases hp : p a = true
    · rw [if_pos hp, if_pos (h a (List.mem_cons_self a l) hp)]
      omega
    · rw [if_neg hp, Nat.add_zero]
      exact Nat.le_trans hl (Nat.le_add_right _ _)

theorem countP_lt_countP {α : Type} (p q : α → Bool) (l : List α)
    (hpq : ∀ a ∈ l, p a = true → q a = true) (a : α) (ha : a ∈ l)
    (hqa : q a = true) (hpa : p a = false) : l.countP p < l.countP q := by
  induction l with
  | nil => cases ha
  | cons b l ih =>
    rw [List.countP_cons, List.countP_cons]
    rcases List.mem_cons.mp ha with rfl | hal
    · rw [if_pos hqa, if_neg (by simp [hpa]), Nat.add_zero]
      have := countP_le_countP p q l (fun c hc hpc => hpq c (List.mem_cons_of_mem _ hc) hpc)
      omega
    · have hlt := ih (fun c hc hpc => hpq c (List.mem_cons_of_mem _ hc) hpc) hal
      have hite : (if p b = true then (1 : Nat) else 0) ≤ (if q b = true then 1 else 0) := by
        by_cases hpb : p b = true
        · rw [if_pos hpb, if_pos (hpq b (List.mem_cons_self _ _) hpb)]
        · rw [if_neg hpb]
          exact Nat.zero_le _
      omega

theorem countP_pos_of_mem {α : Type} (p : α → Bool) (l : List α) (a : α)
    (ha : a ∈ l) (hpa : p a = true) : 0 < l.countP p := by
  induction l with
  | nil => cases ha
  | cons b l ih =>
    rw [List.countP_cons]
    rcases List.mem_cons.mp ha with rfl | hal
    · rw [if_pos hpa]
      omega
    · have := ih hal
      omega

/-- The number of definitions whose full `#/definitions/<name>` ref
string is not yet in the visited set — the measure the definition
branch's visited guard strictly decreases. -/
def unvisitedN (root : Swagger) (visited : List String) : Nat :=
  (root.definitions.map Prod.fst).countP
    (fun nm => !(decide ((definitionPrefix ++ nm) ∈ visited)))

theorem unvisitedN_le_of_subset (root : Swagger) {v w : List String}
    (h : ∀ x ∈ v, x ∈ w) : unvisitedN root w ≤ unvisitedN root v := by
  unfold unvisitedN
  apply countP_le_countP
  intro nm _ hp
  simp only [Bool.not_eq_true', decide_eq_false_iff_not] at hp ⊢
  exact fun hc => hp (h _ hc)

theorem unvisitedN_cons_lt (root : Swagger) (visited : List String) (nm : String)
    (hmem : nm ∈ root.definitions.map Prod.fst)
    (hnv : (definitionPrefix ++ nm) ∉ visited) :
    unvisitedN root ((definitionPrefix ++ nm) :: visited) < unvisitedN root visited := by
  unfold unvisitedN
  apply countP_lt_countP _ _ _ ?_ nm hmem ?_ ?_
  · intro a _ hp
    simp only [Bool.not_eq_true', decide_eq_false_iff_not] at hp ⊢
    exact fun hc => hp (List.mem_cons_of_mem _ hc)
  · simp [hnv]
  · simp

theorem lookup_mem_pairs {β : Type} :
    ∀ (l : List (String × β)) (k : String) (v : β),
      List.lookup k l = some v → (k, v) ∈ l := by
  intro l
  induction l with
  | nil => intro k v h; cases h
  | cons a l ih =>
    intro k v h
    obtain ⟨ka, va⟩ := a
    rw [List.lookup] at h
    split at h
    · cases h
      rename_i hbeq
      have hk : k = ka := eq_of_beq hbeq
      subst hk
      exact List.mem_cons_self _ _
    · exact List.mem_cons_of_mem _ (ih k v h)

theorem pfx_append_refSuffix {r pfx : String} (h : goHasPrefix r pfx = true) :
    pfx ++ refSuffix pfx r = r := by
  unfold goHasPrefix at h
  obtain ⟨t, ht⟩ := List.isPrefixOf_iff_prefix.mp h
  apply String.ext
  show pfx.data ++ r.toList.drop pfx.toList.length = r.data
  rw [show r.toList = r.data from rfl, show pfx.toList = pfx.data from rfl] at ht ⊢
  rw [← ht, List.drop_left]

theorem param_not_def {r : String} (h : goHasPrefix r parameterPrefix = true) :
    goHasPrefix r definitionPrefix = false := by
  by_contra hc
  have hd : goHasPrefix r definitionPrefix = true := by
    revert hc
    cases goHasPrefix r definitionPrefix <;> simp
  have hp1 : parameterPrefix.toList <+: r.toList := List.isPrefixOf_iff_prefix.mp h
  have hp2 : definitionPrefix.toList <+: r.toList := List.isPrefixOf_iff_prefix.mp hd
  have hpd : parameterPrefix.toList <+: definitionPrefix.toList :=
    List.prefix_of_prefix_length_le hp1 hp2 (by decide)
  exact absurd hpd (by decide)

theorem recordUsed_empty (st : WalkSt) : recordUsed st "" = st := by
  unfold recordUsed
  rw [if_neg]
  simp

theorem walkRefF_empty (root : Swagger) (fuel : Nat) (st : WalkSt) :
    walkRefF root (fuel + 1) st "" = some st := by
  simp only [walkRefF]
  rw [if_pos trivial, recordUsed_empty]

theorem walkRefsAux_adequate (root : Swagger) (f : WalkSt → String → Option WalkSt) (k : Nat)
    (hmono : ∀ st r st', f st r = some st' → stSub st st') :
    ∀ (l : List String) (st : WalkSt),
      (∀ (st' : WalkSt) (r : String), r ∈ l → unvisitedN root st'.1 ≤ k →
        (f st' r).isSome = true) →
      unvisitedN root st.1 ≤ k → (walkRefsAux f st l).isSome = true := by
  intro l
  induction l with
  | nil => intro st _ _; rfl
  | cons r rs ih =>
    intro st hf hst
    have h1 := hf st r (List.mem_cons_self _ _) hst
    cases hx : f st r with
    | none => rw [hx] at h1; exact absurd h1 (by simp)
    | some st1 =>
      have hst1 : unvisitedN root st1.1 ≤ k :=
        Nat.le_trans (unvisitedN_le_of_subset root (hmono _ _ _ hx).1) hst
      show (Option.bind (f st r) (fun st' => walkRefsAux f st' rs)).isSome = true
      rw [hx]
      show (walkRefsAux f st1 rs).isSome = true
      exact ih st1 (fun st' r' hr' h' => hf st' r' (List.mem_cons_of_mem _ hr') h') hst1

theorem paramRefs_head (p : Param) : p.ref ∈ paramRefs p :=
  List.mem_cons_self _ _

theorem paramRefs_schema (p : Param) {r : String} (h : r ∈ refsOfOpt p.schema) :
    r ∈ paramRefs p :=
  List.mem_cons_of_mem _ (List.mem_append_left _ h)

theorem paramRefs_items (p : Param) {r : String} (h : p.items = some r) :
    r ∈ paramRefs p := by
  apply List.mem_cons_of_mem
  apply List.mem_append_right
  rw [h]
  exact List.mem_singleton_self _

theorem walkRefF_adequate_A (root : Swagger) (K : Nat)
    (hrec : ∀ (st : WalkSt) (r : String) (f : Nat), unvisitedN root st.1 < K →
      2 * K ≤ f → (walkRefF root f st r).isSome = true) :
    ∀ (st : WalkSt) (r : String) (f : Nat), unvisitedN root st.1 ≤ K →
      goHasPrefix r parameterPrefix = false → 2 * K + 1 ≤ f →
      (walkRefF root f st r).isSome = true := by
  intro st r f hst hnp hf
  obtain ⟨f', rfl⟩ : ∃ f', f = f' + 1 := ⟨f - 1, by omega⟩
  by_cases hre : r = ""
  · subst hre
    rw [walkRefF_empty]
    rfl
  · simp only [walkRefF]
    rw [if_neg hre, if_neg (by simp [hnp])]
    show ((fun st4 => if goHasPrefix r definitionPrefix = true then
        match List.lookup (refSuffix definitionPrefix r) root.definitions with
        | some d =>
          if r ∈ st4.1 then some st4
          else walkRefsAux (walkRefF root f') (r :: st4.1, st4.2) d.refs
        | none => some st4
      else some st4) (recordUsed st r)).isSome = true
    by_cases hdp : goHasPrefix r definitionPrefix = true
    · simp only [if_pos hdp]
      cases hlk : List.lookup (refSuffix definitionPrefix r) root.definitions with
      | none => rfl
      | some d =>
        by_cases hv : r ∈ (recordUsed st r).1
        · simp only [if_pos hv]
          rfl
        · simp only [if_neg hv]
          have hv' : r ∉ st.1 := by rw [recordUsed_fst] at hv; exact hv
          have hnm : refSuffix definitionPrefix r ∈ root.definitions.map Prod.fst :=
            List.mem_map.mpr ⟨_, lookup_mem_pairs _ _ _ hlk, rfl⟩
          have hlt : unvisitedN root (r :: st.1) < unvisitedN root st.1 := by
            have h0 := unvisitedN_cons_lt root st.1 (refSuffix definitionPrefix r) hnm
              (by rw [pfx_append_refSuffix hdp]; exact hv')
            rw [pfx_append_refSuffix hdp] at h0
            exact h0
          have hKpos : unvisitedN root (r :: st.1) < K := by omega
          refine walkRefsAux_adequate root _ (K - 1) (walkRefF_mono root f') _ _ ?_ ?_
          · intro st' r' _ hst'
            exact hrec st' r' f' (by omega) (by omega)
          · show unvisitedN root (r :: (recordUsed st r).1) ≤ K - 1
            rw [recordUsed_fst]
            omega
    · simp only [if_neg hdp]
      rfl

theorem walkRefF_adequate_B (root : Swagger)
    (hpar : ∀ np ∈ root.parameters, ∀ r ∈ paramRefs np.2,
      goHasPrefix r parameterPrefix = false) (K : Nat)
    (hA : ∀ (st : WalkSt) (r : String) (f : Nat), unvisitedN root st.1 ≤ K →
      goHasPrefix r parameterPrefix = false → 2 * K + 1 ≤ f →
      (walkRefF root f st r).isSome = true) :
    ∀ (st : WalkSt) (r : String) (f : Nat), unvisitedN root st.1 ≤ K →
      2 * K + 2 ≤ f → (walkRefF root f st r).isSome = true := by
  intro st r f hst hf
  by_cases hpp : goHasPrefix r parameterPrefix = true
  · obtain ⟨f', rfl⟩ : ∃ f', f = f' + 1 := ⟨f - 1, by omega⟩
    have hre : ¬(r = "") := fun hc => by
      rw [hc] at hpp
      exact absurd hpp (by decide)
    simp only [walkRefF]
    rw [if_neg hre, if_pos hpp]
    have hst1 : unvisitedN root (recordUsed st r).1 ≤ K := by
      rw [recordUsed_fst]
      exact hst
    have hsome : (walkParamAux (walkRefF root f') (recordUsed st r)
        ((List.lookup (refSuffix parameterPrefix r) root.parameters).getD zeroParam)).isSome
        = true := by
      cases hlk : List.lookup (refSuffix parameterPrefix r) root.parameters with
      | none =>
        rw [Option.getD_none]
        obtain ⟨f'', rfl⟩ : ∃ f'', f' = f'' + 1 := ⟨f' - 1, by omega⟩
        unfold walkParamAux
        rw [show zeroParam.ref = "" from rfl, walkRefF_empty]
        rfl
      | some p0 =>
        rw [Option.getD_some]
        have hclean := hpar _ (lookup_mem_pairs _ _ _ hlk)
        have h1 : (walkRefF root f' (recordUsed st r) p0.ref).isSome = true :=
          hA _ _ _ hst1 (hclean _ (paramRefs_head p0)) (by omega)
        obtain ⟨st2, h2⟩ := Option.isSome_iff_exists.mp h1
        unfold walkParamAux
        rw [h2]
        show (Option.bind (walkRefsAux (walkRefF root f') st2 (refsOfOpt p0.schema))
          (fun st3 => match p0.items with
            | some itemRef => walkRefF root f' st3 itemRef
            | none => some st3)).isSome = true
        have hst2 : unvisitedN root st2.1 ≤ K :=
          Nat.le_trans (unvisitedN_le_of_subset root (walkRefF_mono root f' _ _ _ h2).1) hst1
        have h3 : (walkRefsAux (walkRefF root f') st2 (refsOfOpt p0.schema)).isSome = true := by
          refine walkRefsAux_adequate root _ K (walkRefF_mono root f') _ _ ?_ hst2
          intro st' r' hr' hst'
          exact hA _ _ _ hst' (hclean _ (paramRefs_schema p0 hr')) (by omega)
        obtain ⟨st3, h3'⟩ := Option.isSome_iff_exists.mp h3
        rw [h3']
        show (match p0.items with
          | some itemRef => walkRefF root f' st3 itemRef
          | none => some st3).isSome = true
        cases hit : p0.items with
        | none => rfl
        | some itemRef =>
          have hst3 : unvisitedN root st3.1 ≤ K :=
            Nat.le_trans (unvisitedN_le_of_subset root
              (walkRefsAux_mono _ (walkRefF_mono root f') _ _ _ h3').1) hst2
          exact hA _ _ _ hst3 (hclean _ (paramRefs_items p0 hit)) (by omega)
    obtain ⟨st4, h4⟩ := Option.isSome_iff_exists.mp hsome
    rw [h4]
    show (if goHasPrefix r definitionPrefix = true then
        match List.lookup (refSuffix definitionPrefix r) root.definitions with
        | some d =>
          if r ∈ st4.1 then some st4
          else walkRefsAux (walkRefF root f') (r :: st4.1, st4.2) d.refs
        | none => some st4
      else some st4).isSome = true
    rw [if_neg (fun hc => by
      have hx := param_not_def hpp
      rw [hc] at hx
      exact Bool.noConfusion hx)]
    rfl
  · have hnp : goHasPrefix r parameterPrefix = false := by
      revert hpp
      cases goHasPrefix r parameterPrefix <;> simp
    exact hA st r f hst hnp (by omega)

/-- Fuel adequacy of the patched walker when no shared parameter's
contents carry a `#/parameters/` ref: a ref that is not a parameter ref
succeeds on fuel `2k + 1` and an arbitrary ref on fuel `2k + 2`, where
`k` bounds the number of not-yet-visited definitions. -/
theorem walkRefF_adequate (root : Swagger)
    (hpar : ∀ np ∈ root.parameters, ∀ r ∈ paramRefs np.2,
      goHasPrefix r parameterPrefix = false) :
    ∀ k : Nat,
      (∀ (st : WalkSt) (r : String) (f : Nat), unvisitedN root st.1 ≤ k →
        goHasPrefix r parameterPrefix = false → 2 * k + 1 ≤ f →
        (walkRefF root f st r).isSome = true) ∧
      (∀ (st : WalkSt) (r : String) (f : Nat), unvisitedN root st.1 ≤ k →
        2 * k + 2 ≤ f → (walkRefF root f st r).isSome = true) := by
  intro k
  induction k with
  | zero =>
    have hA := walkRefF_adequate_A root 0 (fun st r f h _ => absurd h (by omega))
    exact ⟨hA, walkRefF_adequate_B root hpar 0 hA⟩
  | succ k ih =>
    have hA := walkRefF_adequate_A root (k + 1)
      (fun st r f h hf => ih.2 st r f (by omega) (by omega))
    exact ⟨hA, walkRefF_adequate_B root hpar (k + 1) hA⟩

/-! ### C2: theorem, witness and counterexample -/

/-- C2 (amended): the patched walker's visited guard covers only
definition refs, not parameter refs, so termination holds for every
document whose shared parameters' contents carry no `#/parameters/`
ref (and with no-duplicate definition names, each reached definition is
kept exactly once): on fuel `2·|definitions| + 2` per top-level ref the
walk returns a final state, the filter keeps exactly the definitions
whose name the walk recorded, and each kept name appears exactly once in
the output definitions. -/
theorem filterSpecByPaths_terminates (root : Swagger) (keep : List String)
    (hnd : (root.definitions.map Prod.fst).Nodup)
    (hpar : ∀ np ∈ root.parameters, ∀ r ∈ paramRefs np.2,
      goHasPrefix r parameterPrefix = false) :
    ∃ out used,
      walkOnAllReferences (keepPathsOnly root keep)
        (2 * root.definitions.length + 2) = some used ∧
      filterSpecByPaths root keep (2 * root.definitions.length + 2) = some out ∧
      out.definitions = root.definitions.filter (fun d => decide (d.1 ∈ used.2)) ∧
      (out.definitions.map Prod.fst).Nodup ∧
      ∀ nm ∈ out.definitions.map Prod.fst,
        (out.definitions.map Prod.fst).count nm = 1 := by
  have hpar' : ∀ np ∈ (keepPathsOnly root keep).parameters, ∀ r ∈ paramRefs np.2,
      goHasPrefix r parameterPrefix = false := hpar
  have hk0 : unvisitedN (keepPathsOnly root keep) (([], []) : WalkSt).1
      ≤ root.definitions.length := by
    show unvisitedN (keepPathsOnly root keep) [] ≤ root.definitions.length
    unfold unvisitedN
    refine Nat.le_trans (List.countP_le_length _) ?_
    rw [List.length_map]
    exact Nat.le_refl _
  have hsome : (walkOnAllReferences (keepPathsOnly root keep)
      (2 * root.definitions.length + 2)).isSome = true := by
    unfold walkOnAllReferences
    refine walkRefsAux_adequate (keepPathsOnly root keep) _ root.definitions.length
      (walkRefF_mono _ _) _ _ ?_ hk0
    intro st' r' _ hst'
    exact (walkRefF_adequate (keepPathsOnly root keep) hpar' root.definitions.length).2
      st' r' _ hst' (Nat.le_refl _)
  obtain ⟨used, hused⟩ := Option.isSome_iff_exists.mp hsome
  have hnodup : ((root.definitions.filter
      (fun d => decide (d.1 ∈ used.2))).map Prod.fst).Nodup := by
    have hsub : List.Sublist
        ((root.definitions.filter (fun d => decide (d.1 ∈ used.2))).map Prod.fst)
        (root.definitions.map Prod.fst) :=
      List.Sublist.map _ (List.filter_sublist _)
    exact List.Nodup.sublist hsub hnd
  refine ⟨{ keepPathsOnly root keep with
      definitions := root.definitions.filter (fun d => decide (d.1 ∈ used.2)) },
    used, hused, ?_, rfl, hnodup, ?_⟩
  · unfold filterSpecByPaths
    rw [hused]
    rfl
  · intro nm hnm
    exact List.count_eq_one_of_mem hnodup hnm

/-- The spec's cycle-guard test document: a kept operation references the
shared parameter `X`, whose schema references the definition `Y`, whose
schema references itself; the definition `Z` is unreachable garbage. -/
def walkWitnessDoc : Swagger :=
  { paths := some [("/keep",
      { get := some { ext := ExtGK.absent,
                      parameters := [{ ref := "#/parameters/X", schema := none,
                                       items := none }],
                      responses := [] } })],
    definitions := [("Y", Schema.mk "#/definitions/Y" [] none []),
                    ("Z", Schema.mk "" [] none [])],
    parameters := [("X", { ref := "",
                           schema := some (Schema.mk "#/definitions/Y" [] none []),
                           items := none })] }

/-- Witness for C2: on the chain `paramX → schemaY → schemaY` the
hypotheses hold, the filter terminates on the canonical fuel, and the
evaluated output keeps `Y` exactly once and drops the unreachable `Z`. -/
theorem filterSpecByPaths_terminates_witness :
    ((walkWitnessDoc.definitions.map Prod.fst).Nodup ∧
      (∀ np ∈ walkWitnessDoc.parameters, ∀ r ∈ paramRefs np.2,
        goHasPrefix r parameterPrefix = false)) ∧
    (∃ out used,
      walkOnAllReferences (keepPathsOnly walkWitnessDoc ["/keep"])
        (2 * walkWitnessDoc.definitions.length + 2) = some used ∧
      filterSpecByPaths walkWitnessDoc ["/keep"]
        (2 * walkWitnessDoc.definitions.length + 2) = some out ∧
      out.definitions = walkWitnessDoc.definitions.filter
        (fun d => decide (d.1 ∈ used.2)) ∧
      (out.definitions.map Prod.fst).Nodup ∧
      ∀ nm ∈ out.definitions.map Prod.fst,
        (out.definitions.map Prod.fst).count nm = 1) ∧
    (filterSpecByPaths walkWitnessDoc ["/keep"] 6).map
        (fun out => out.definitions.map Prod.fst) = some ["Y"] :=
  ⟨⟨by decide, by decide⟩,
   filterSpecByPaths_terminates walkWitnessDoc ["/keep"] (by decide) (by decide),
   by rfl⟩

/-- A document on which the patched walk never terminates: the shared
parameter `X` references itself through `#/parameters/X`, and a kept
operation references `X`. -/
def cexWalkDoc : Swagger :=
  { paths := some [("/p",
      { get := some { ext := ExtGK.absent,
                      parameters := [{ ref := "#/parameters/X", schema := none,
                                       items := none }],
                      responses := [] } })],
    definitions := [],
    parameters := [("X", { ref := "#/parameters/X", schema := none, items := none })] }

theorem walkRefF_paramCycle :
    ∀ (fuel : Nat) (st : WalkSt),
      walkRefF cexWalkDoc fuel st "#/parameters/X" = none := by
  intro fuel
  induction fuel with
  | zero => intro st; rfl
  | succ n ih =>
    intro st
    simp only [walkRefF]
    rw [if_neg (show ¬(("#/parameters/X" : String) = "") from by decide)]
    rw [if_pos (show goHasPrefix "#/parameters/X" parameterPrefix = true from by decide)]
    rw [show (List.lookup (refSuffix parameterPrefix "#/parameters/X")
        cexWalkDoc.parameters).getD zeroParam
      = { ref := "#/parameters/X", schema := none, items := none } from rfl]
    unfold walkParamAux
    rw [show ({ ref := "#/parameters/X", schema := none, items := none } : Param).ref
      = "#/parameters/X" from rfl]
    rw [ih]
    rfl

/-- Counterexample for C2 as stated: the claim's guard records "each
resolved reference name", but the parameter branch of the patched
callback has no visited guard, so on a self-referential parameter the
walk exhausts any fuel — it fails both at the canonical bound that
suffices for parameter-ref-free documents and at fuel 1000 (the helper
`walkRefF_paramCycle` shows it fails at every fuel): the Go walk does
not terminate on this cyclic document. -/
theorem walkOnAllReferences_cex :
    walkOnAllReferences cexWalkDoc (2 * cexWalkDoc.definitions.length + 2) = none ∧
    walkOnAllReferences cexWalkDoc 1000 = none := by
  have h1 : ∀ f : Nat, walkOnAllReferences cexWalkDoc f = none := by
    intro f
    show walkRefsAux (walkRefF cexWalkDoc f) ([], []) (startRefs cexWalkDoc) = none
    rw [show startRefs cexWalkDoc = ["#/parameters/X"] from rfl]
    show Option.bind (walkRefF cexWalkDoc f ([], []) "#/parameters/X")
      (fun st' => walkRefsAux (walkRefF cexWalkDoc f) st' []) = none
    rw [walkRefF_paramCycle]
    rfl
  exact ⟨h1 _, h1 1000⟩

end CrdSwagger
